import Mathlib

/-!
# Verification of the geodesk-tiles tile build engine

A shallow embedding of the algorithmic core of the `geodesk-tiles` vector
tile server (`src/tilebuilder.cpp`, `src/tilebuilder.h`, `src/ascendtiles.cpp`,
`src/server.cpp`) together with proofs of the specified properties.

Numeric modelling: the C++ code computes with `float`/`double`; the embedding
uses exact rationals `ℚ`, which is the standard idealisation for the
algorithmic (branching/structural) properties verified here.  Machine-float
rounding itself is not in scope of any of the statements below.
-/

namespace GeodeskTiles

/-- A 2-d point in normalized tile coordinates (`vt_point` in `clipper.h`,
`geometry::point<real>`). The C++ `real` is `float`; we embed with `ℚ`. -/
structure Pt where
  x : ℚ
  y : ℚ
deriving DecidableEq, Repr

instance : Inhabited Pt := ⟨⟨0, 0⟩⟩

def Pt.sub (a b : Pt) : Pt := ⟨a.x - b.x, a.y - b.y⟩

def Pt.add (a b : Pt) : Pt := ⟨a.x + b.x, a.y + b.y⟩

def Pt.smul (t : ℚ) (a : Pt) : Pt := ⟨t * a.x, t * a.y⟩

/-- `dot` product of two points (from `linalg.h`, as used in `tilebuilder.cpp`). -/
def Pt.dot (a b : Pt) : ℚ := a.x * b.x + a.y * b.y

/-- `dist2` from `src/tilebuilder.cpp`: squared norm of a point. -/
def dist2 (p : Pt) : ℚ := p.x * p.x + p.y * p.y

/-- `distToSegment2` from `src/tilebuilder.cpp`: squared distance from point
`pt` to the line segment `start`–`end`, clamping the projection parameter
to `[0,1]`. -/
def distToSegment2 (s e pt : Pt) : ℚ :=
  let l2 := dist2 (e.sub s)
  if l2 = 0 then dist2 (s.sub pt)
  else
    let t := max 0 (min 1 ((pt.sub s).dot (e.sub s) / l2))
    dist2 ((s.add (Pt.smul t (e.sub s))).sub pt)

/-! ## Ramer–Douglas–Peucker simplification (`simplifyRDP` / `simplify`,
`src/tilebuilder.cpp` lines 164–195)

The C++ `simplifyRDP` scans indices `start+1 .. end-1` for the point of
maximum squared distance to the chord `pts[start]`–`pts[end]`; if that
maximum is `< thresh²` it returns, otherwise it marks the argmax as kept
and recurses on the two halves.  We embed the scan as a fold and the
recursion with an explicit fuel argument; the fuel `end - start` is exactly
the C++ recursion's termination measure, and `simplifyKeep` below supplies
a sufficient amount, so the fueled function computes precisely the C++
recursion's result. -/

/-- One step of the max-distance scan: update `(maxdist2, argmax)` if the
distance of `pts[ii]` to the chord `pts[s]`–`pts[e]` is strictly greater. -/
def rdpStep (pts : List Pt) (s e : ℕ) (acc : ℚ × ℕ) (ii : ℕ) : ℚ × ℕ :=
  let d2 := distToSegment2 (pts.getD s default) (pts.getD e default) (pts.getD ii default)
  if acc.1 < d2 then (d2, ii) else acc

/-- The scan loop of `simplifyRDP`: fold `rdpStep` over the interior indices
`s+1 .. e-1`, starting from `(0, 0)` as in the C++ (`maxdist2 = 0; argmax = 0`). -/
def rdpScan (pts : List Pt) (s e : ℕ) : ℚ × ℕ :=
  (List.range' (s + 1) (e - (s + 1))).foldl (rdpStep pts s e) (0, 0)

/-- The recursion of `simplifyRDP`, returning the set of interior indices
marked kept (`keep[argmax] = 1`).  `fuel` bounds the recursion depth by the
interval length, mirroring the C++ recursion on ever-shorter `(start, end)`
intervals. -/
def rdpKeepF (pts : List Pt) (t : ℚ) : ℕ → ℕ → ℕ → Finset ℕ
  | 0, _, _ => ∅
  | fuel + 1, s, e =>
    let m := rdpScan pts s e
    if m.1 < t * t then ∅
    else insert m.2 (rdpKeepF pts t fuel s m.2 ∪ rdpKeepF pts t fuel m.2 e)

/-- `simplify` from `src/tilebuilder.cpp`: returns `none` for the C++
"empty keep vector" (meaning: keep every point), otherwise the set of kept
indices — the first point, the last point, and the indices marked by
`simplifyRDP(pts, keep, 0, pts.size()-1, thresh)`. -/
def simplifyKeep (pts : List Pt) (t : ℚ) : Option (Finset ℕ) :=
  if t ≤ 0 ∨ pts.length < 3 then none
  else some (insert 0 (insert (pts.length - 1)
    (rdpKeepF pts t (pts.length - 1) 0 (pts.length - 1))))

/-! ### Fold lemmas for the scan -/

theorem rdpStep_fst_le (pts : List Pt) (s e : ℕ) (acc : ℚ × ℕ) (ii : ℕ) :
    acc.1 ≤ (rdpStep pts s e acc ii).1 := by
  unfold rdpStep
  dsimp only
  split <;> simp_all [le_of_lt]

theorem rdpScan_foldl_fst_le (pts : List Pt) (s e : ℕ) (l : List ℕ) (acc : ℚ × ℕ) :
    acc.1 ≤ (l.foldl (rdpStep pts s e) acc).1 := by
  induction l generalizing acc with
  | nil => simp
  | cons a l ih => exact le_trans (rdpStep_fst_le pts s e acc a) (ih _)

/-- Every scanned index's distance is bounded by the final maximum. -/
theorem rdpScan_foldl_bound (pts : List Pt) (s e : ℕ) (l : List ℕ) (acc : ℚ × ℕ) :
    ∀ ii ∈ l, distToSegment2 (pts.getD s default) (pts.getD e default) (pts.getD ii default) ≤
      (l.foldl (rdpStep pts s e) acc).1 := by
  induction l generalizing acc with
  | nil => simp
  | cons a l ih =>
    intro ii hii
    rcases List.mem_cons.mp hii with rfl | h
    · refine le_trans ?_ (rdpScan_foldl_fst_le pts s e l (rdpStep pts s e acc ii))
      unfold rdpStep
      dsimp only
      split
      · simp
      · simp_all [not_lt]
    · exact ih _ ii h

/-- The final accumulator is either the initial one or its index is in the list. -/
theorem rdpScan_foldl_cases (pts : List Pt) (s e : ℕ) (l : List ℕ) (acc : ℚ × ℕ) :
    l.foldl (rdpStep pts s e) acc = acc ∨ (l.foldl (rdpStep pts s e) acc).2 ∈ l := by
  induction l generalizing acc with
  | nil => simp
  | cons a l ih =>
    simp only [List.foldl_cons]
    rcases ih (rdpStep pts s e acc a) with h | h
    · rw [h]
      unfold rdpStep
      dsimp only
      split
      · right; simp
      · left; rfl
    · right; exact List.mem_cons_of_mem _ h

/-- If the scan's maximum is positive, its argmax lies strictly inside `(s, e)`. -/
theorem rdpScan_pos_mem (pts : List Pt) (s e : ℕ) (h : 0 < (rdpScan pts s e).1) :
    s < (rdpScan pts s e).2 ∧ (rdpScan pts s e).2 < e := by
  have hc : rdpScan pts s e = (0, 0) ∨
      (rdpScan pts s e).2 ∈ List.range' (s + 1) (e - (s + 1)) :=
    rdpScan_foldl_cases pts s e (List.range' (s + 1) (e - (s + 1))) (0, 0)
  rcases hc with hc | hc
  · exfalso
    rw [hc] at h
    exact lt_irrefl 0 h
  · rw [List.mem_range'_1] at hc
    omega

/-- All interior indices of `(s, e)` have distance at most the scan maximum. -/
theorem rdpScan_max (pts : List Pt) (s e : ℕ) :
    ∀ ii, s < ii → ii < e →
      distToSegment2 (pts.getD s default) (pts.getD e default) (pts.getD ii default) ≤
        (rdpScan pts s e).1 := by
  intro ii h1 h2
  exact rdpScan_foldl_bound pts s e _ (0, 0) ii (by rw [List.mem_range'_1]; omega)

/-! ### The RDP correctness lemma -/

/-- Invariant of the `simplifyRDP` recursion: with positive threshold and
sufficient fuel, (a) every kept index is interior to `(s, e)`, and
(b) every interior index *not* kept sits between two consecutive points of
the retained chain (endpoints included) at squared distance `< t²` from the
chord connecting them. -/
theorem rdpKeepF_spec (pts : List Pt) (t : ℚ) (ht : 0 < t) :
    ∀ fuel s e, s < e → e - s ≤ fuel →
      (∀ a ∈ rdpKeepF pts t fuel s e, s < a ∧ a < e) ∧
      (∀ i, s < i → i < e → i ∉ rdpKeepF pts t fuel s e →
        ∃ a b, s ≤ a ∧ b ≤ e ∧ a < i ∧ i < b ∧
          (a = s ∨ a ∈ rdpKeepF pts t fuel s e) ∧
          (b = e ∨ b ∈ rdpKeepF pts t fuel s e) ∧
          (∀ j, a < j → j < b → j ∉ rdpKeepF pts t fuel s e) ∧
          distToSegment2 (pts.getD a default) (pts.getD b default) (pts.getD i default) <
            t * t) := by
  intro fuel
  induction fuel with
  | zero => intro s e hse hf; omega
  | succ fuel ih =>
    intro s e hse hf
    by_cases hlt : (rdpScan pts s e).1 < t * t
    · -- base case of the recursion: nothing kept, all interior points close to chord
      have hK : rdpKeepF pts t (fuel + 1) s e = ∅ := by
        unfold rdpKeepF
        simp [hlt]
      constructor
      · intro a ha; rw [hK] at ha; simp at ha
      · intro i h1 h2 _
        refine ⟨s, e, le_refl s, le_refl e, h1, h2, Or.inl rfl, Or.inl rfl, ?_, ?_⟩
        · intro j _ _; rw [hK]; simp
        · exact lt_of_le_of_lt (rdpScan_max pts s e i h1 h2) hlt
    · -- recursive case: split at the argmax
      push_neg at hlt
      have hmpos : 0 < (rdpScan pts s e).1 := lt_of_lt_of_le (mul_pos ht ht) hlt
      obtain ⟨hsa, hae⟩ := rdpScan_pos_mem pts s e hmpos
      have hK : rdpKeepF pts t (fuel + 1) s e =
          insert (rdpScan pts s e).2
            (rdpKeepF pts t fuel s (rdpScan pts s e).2 ∪
              rdpKeepF pts t fuel (rdpScan pts s e).2 e) := by
        show (if (rdpScan pts s e).1 < t * t then (∅ : Finset ℕ)
            else insert (rdpScan pts s e).2
              (rdpKeepF pts t fuel s (rdpScan pts s e).2 ∪
                rdpKeepF pts t fuel (rdpScan pts s e).2 e)) = _
        rw [if_neg (not_lt.mpr hlt)]
      have hin0 : (rdpScan pts s e).2 ∈ rdpKeepF pts t (fuel + 1) s e := by
        rw [hK]; exact Finset.mem_insert_self _ _
      have hinL : ∀ x ∈ rdpKeepF pts t fuel s (rdpScan pts s e).2,
          x ∈ rdpKeepF pts t (fuel + 1) s e := by
        intro x hx
        rw [hK]
        exact Finset.mem_insert_of_mem (Finset.mem_union_left _ hx)
      have hinR : ∀ x ∈ rdpKeepF pts t fuel (rdpScan pts s e).2 e,
          x ∈ rdpKeepF pts t (fuel + 1) s e := by
        intro x hx
        rw [hK]
        exact Finset.mem_insert_of_mem (Finset.mem_union_right _ hx)
      have ihL := ih s (rdpScan pts s e).2 hsa (by omega)
      have ihR := ih (rdpScan pts s e).2 e hae (by omega)
      constructor
      · intro b hb
        rw [hK] at hb
        rcases Finset.mem_insert.mp hb with rfl | hb
        · exact ⟨hsa, hae⟩
        · rcases Finset.mem_union.mp hb with hb | hb
          · have := ihL.1 b hb; omega
          · have := ihR.1 b hb; omega
      · intro i h1 h2 hni
        have hia : i ≠ (rdpScan pts s e).2 := by
          intro h
          rw [h] at hni
          exact hni hin0
        have hniL : i ∉ rdpKeepF pts t fuel s (rdpScan pts s e).2 := fun h => hni (hinL i h)
        have hniR : i ∉ rdpKeepF pts t fuel (rdpScan pts s e).2 e := fun h => hni (hinR i h)
        rcases lt_or_gt_of_ne hia with hi | hi
        · -- i in the left half
          obtain ⟨a, b, hA, hB, hai, hib, hmemA, hmemB, hgap, hdist⟩ :=
            ihL.2 i h1 hi hniL
          refine ⟨a, b, hA, le_trans hB (le_of_lt hae), hai, hib, ?_, ?_, ?_, hdist⟩
          · rcases hmemA with rfl | h
            · exact Or.inl rfl
            · exact Or.inr (hinL a h)
          · rcases hmemB with rfl | h
            · exact Or.inr hin0
            · exact Or.inr (hinL b h)
          · intro j hj1 hj2
            rw [hK]
            intro hj
            rcases Finset.mem_insert.mp hj with rfl | hj
            · omega
            · rcases Finset.mem_union.mp hj with hj | hj
              · exact hgap j hj1 hj2 hj
              · have := ihR.1 j hj; omega
        · -- i in the right half
          obtain ⟨a, b, hA, hB, hai, hib, hmemA, hmemB, hgap, hdist⟩ :=
            ihR.2 i hi h2 hniR
          refine ⟨a, b, le_trans (le_of_lt hsa) hA, hB, hai, hib, ?_, ?_, ?_, hdist⟩
          · rcases hmemA with rfl | h
            · exact Or.inr hin0
            · exact Or.inr (hinR a h)
          · rcases hmemB with rfl | h
            · exact Or.inl rfl
            · exact Or.inr (hinR b h)
          · intro j hj1 hj2
            rw [hK]
            intro hj
            rcases Finset.mem_insert.mp hj with rfl | hj
            · omega
            · rcases Finset.mem_union.mp hj with hj | hj
              · have := ihL.1 j hj; omega
              · exact hgap j hj1 hj2 hj

/-- C6: For every input polyline with at least 3 points and every positive
threshold, `simplify` (`src/tilebuilder.cpp` lines 164–195) returns a
keep-mask that selects a subsequence of the input containing the first and
last points, and every point not selected lies at squared perpendicular
distance strictly less than `thresh²` from the segment joining the two
retained points that enclose it (a segment of the retained polyline). -/
theorem C6_rdp_simplify (pts : List Pt) (t : ℚ) (ht : 0 < t) (h3 : 3 ≤ pts.length) :
    ∃ K, simplifyKeep pts t = some K ∧
      0 ∈ K ∧ pts.length - 1 ∈ K ∧ (∀ i ∈ K, i < pts.length) ∧
      (∀ i, i < pts.length → i ∉ K →
        ∃ a b, a ∈ K ∧ b ∈ K ∧ a < i ∧ i < b ∧
          (∀ j, a < j → j < b → j ∉ K) ∧
          distToSegment2 (pts.getD a default) (pts.getD b default) (pts.getD i default) <
            t * t) := by
  have hn : ¬(t ≤ 0 ∨ pts.length < 3) := by push_neg; exact ⟨ht, h3⟩
  refine ⟨_, by unfold simplifyKeep; rw [if_neg hn], ?_, ?_, ?_, ?_⟩
  · exact Finset.mem_insert_self _ _
  · exact Finset.mem_insert_of_mem (Finset.mem_insert_self _ _)
  · intro i hi
    rcases Finset.mem_insert.mp hi with rfl | hi
    · omega
    · rcases Finset.mem_insert.mp hi with rfl | hi
      · omega
      · have := (rdpKeepF_spec pts t ht (pts.length - 1) 0 (pts.length - 1)
          (by omega) (by omega)).1 i hi
        omega
  · intro i hilen hni
    have hi0 : i ≠ 0 := fun h => hni (h ▸ Finset.mem_insert_self _ _)
    have hiN : i ≠ pts.length - 1 := fun h =>
      hni (h ▸ Finset.mem_insert_of_mem (Finset.mem_insert_self _ _))
    have hniK : i ∉ rdpKeepF pts t (pts.length - 1) 0 (pts.length - 1) := fun h =>
      hni (Finset.mem_insert_of_mem (Finset.mem_insert_of_mem h))
    have hspec := rdpKeepF_spec pts t ht (pts.length - 1) 0 (pts.length - 1)
      (by omega) (by omega)
    obtain ⟨a, b, _, hB, hai, hib, hmemA, hmemB, hgap, hdist⟩ :=
      hspec.2 i (by omega) (by omega) hniK
    have haK : a ∈ insert 0 (insert (pts.length - 1)
        (rdpKeepF pts t (pts.length - 1) 0 (pts.length - 1))) := by
      rcases hmemA with rfl | h
      · exact Finset.mem_insert_self _ _
      · exact Finset.mem_insert_of_mem (Finset.mem_insert_of_mem h)
    have hbK : b ∈ insert 0 (insert (pts.length - 1)
        (rdpKeepF pts t (pts.length - 1) 0 (pts.length - 1))) := by
      rcases hmemB with rfl | h
      · exact Finset.mem_insert_of_mem (Finset.mem_insert_self _ _)
      · exact Finset.mem_insert_of_mem (Finset.mem_insert_of_mem h)
    refine ⟨a, b, haK, hbK, hai, hib, ?_, hdist⟩
    intro j hj1 hj2 hj
    rcases Finset.mem_insert.mp hj with rfl | hj
    · omega
    · rcases Finset.mem_insert.mp hj with rfl | hj
      · omega
      · exact hgap j hj1 hj2 hj

/-- Witness for C6 at the concrete 3-point polyline
`[(0,0), (1,1), (2,0)]` with threshold `1`. -/
theorem C6_rdp_simplify_witness :
    (0 : ℚ) < 1 ∧ 3 ≤ ([⟨0,0⟩, ⟨1,1⟩, ⟨2,0⟩] : List Pt).length ∧
      (∃ K, simplifyKeep [⟨0,0⟩, ⟨1,1⟩, ⟨2,0⟩] 1 = some K ∧
        0 ∈ K ∧ ([⟨0,0⟩, ⟨1,1⟩, ⟨2,0⟩] : List Pt).length - 1 ∈ K ∧
        (∀ i ∈ K, i < ([⟨0,0⟩, ⟨1,1⟩, ⟨2,0⟩] : List Pt).length) ∧
        (∀ i, i < ([⟨0,0⟩, ⟨1,1⟩, ⟨2,0⟩] : List Pt).length → i ∉ K →
          ∃ a b, a ∈ K ∧ b ∈ K ∧ a < i ∧ i < b ∧
            (∀ j, a < j → j < b → j ∉ K) ∧
            distToSegment2 (([⟨0,0⟩, ⟨1,1⟩, ⟨2,0⟩] : List Pt).getD a default)
              (([⟨0,0⟩, ⟨1,1⟩, ⟨2,0⟩] : List Pt).getD b default)
              (([⟨0,0⟩, ⟨1,1⟩, ⟨2,0⟩] : List Pt).getD i default) < 1 * 1)) :=
  ⟨by norm_num, by decide, C6_rdp_simplify _ 1 (by norm_num) (by decide)⟩

/-! ## MVT quantization (`TileBuilder::toTilePts`, `src/tilebuilder.cpp`
lines 225–236, and `TileBuilder::buildPolygon`, lines 507–529) -/

/-- The MVT tile extent (`TileBuilder::tileExtent = 4096`). -/
def tileExtent : ℚ := 4096

/-- A quantized integer tile point (`i32vec2`). -/
structure IPt where
  x : ℤ
  y : ℤ
deriving DecidableEq, Repr

instance : Inhabited IPt := ⟨⟨0, 0⟩⟩

/-- The C `float → int32_t` conversion: truncation toward zero. -/
def cTrunc (q : ℚ) : ℤ := if 0 ≤ q then ⌊q⌋ else ⌈q⌉

/-- Source-side quantization of one point, as in
`i32vec2(p.x*tileExtent + 0.5f, (1 - p.y)*tileExtent + 0.5f)`. -/
def quantize (p : Pt) : IPt :=
  ⟨cTrunc (p.x * tileExtent + 1/2), cTrunc ((1 - p.y) * tileExtent + 1/2)⟩

/-- Whether index `ii` survives `simplify`'s keep mask
(`!keep.empty() && !keep[ii]` skips the point). -/
def keptIdx (keep : Option (Finset ℕ)) (ii : ℕ) : Bool :=
  match keep with
  | none => true
  | some K => decide (ii ∈ K)

/-- One iteration of the `toTilePts` output loop: append the quantized point
unless it equals the current back of `m_tilePts`. -/
def tilePtsPush (acc : List IPt) (ip : IPt) : List IPt :=
  if acc.getLast? = some ip then acc else acc ++ [ip]

/-- `TileBuilder::toTilePts`: simplify, quantize the kept points and drop
consecutive duplicates. -/
def toTilePts (pts : List Pt) (thresh : ℚ) : List IPt :=
  let keep := simplifyKeep pts thresh
  (List.range pts.length).foldl
    (fun acc ii =>
      if keptIdx keep ii then tilePtsPush acc (quantize (pts.getD ii default)) else acc)
    []

/-- Spec-side quantization: `(floor(x·4096 + 0.5), floor((1−y)·4096 + 0.5))`. -/
def floorQuantize (p : Pt) : IPt :=
  ⟨⌊p.x * 4096 + 1/2⌋, ⌊(1 - p.y) * 4096 + 1/2⌋⟩

/-- Spec-side collapse of consecutive duplicates, given the previous
retained point. -/
def collapseAfter (prev : IPt) : List IPt → List IPt
  | [] => []
  | a :: r => if a = prev then collapseAfter prev r else a :: collapseAfter a r

/-- Spec-side collapse of consecutive duplicate points. -/
def collapseDup : List IPt → List IPt
  | [] => []
  | a :: r => a :: collapseAfter a r

/-- `TileBuilder::buildPolygon` (geometry part): for each polygon of the
multi-polygon, skip it if its outer ring has fewer than 4 raw points;
otherwise quantize each ring with `toTilePts` and emit it only if it has at
least 4 quantized points and is closed. -/
def buildPolygonRings (mp : List (List (List Pt))) (thresh : ℚ) : List (List IPt) :=
  mp.foldl
    (fun acc poly =>
      if (poly.headD []).length < 4 then acc
      else
        poly.foldl
          (fun acc2 ring =>
            let t := toTilePts ring thresh
            if t.length < 4 then acc2
            else if t.getLast? ≠ t.head? then acc2
            else acc2 ++ [t])
          acc)
    []

/-! ### Lemmas for C8 -/

theorem tilePtsPush_foldl_append (l : List IPt) :
    ∀ (acc : List IPt) (p : IPt),
      l.foldl tilePtsPush (acc ++ [p]) = acc ++ [p] ++ collapseAfter p l := by
  induction l with
  | nil => intro acc p; simp [collapseAfter]
  | cons a r ih =>
    intro acc p
    simp only [List.foldl_cons, collapseAfter]
    by_cases h : a = p
    · subst h
      rw [show tilePtsPush (acc ++ [a]) a = acc ++ [a] by
        unfold tilePtsPush; rw [if_pos (by simp)]]
      simp [ih]
    · rw [show tilePtsPush (acc ++ [p]) a = (acc ++ [p]) ++ [a] by
        unfold tilePtsPush
        rw [if_neg (by simp [Ne.symm h])]]
      rw [if_neg h]
      have := ih (acc ++ [p]) a
      simp only [List.append_assoc] at this ⊢
      rw [this]
      simp

/-- Folding the duplicate-dropping push over a list from the empty
accumulator is the spec-side collapse. -/
theorem tilePtsPush_foldl_eq_collapse (l : List IPt) :
    l.foldl tilePtsPush [] = collapseDup l := by
  cases l with
  | nil => rfl
  | cons a r =>
    simp only [List.foldl_cons, collapseDup]
    rw [show tilePtsPush [] a = [] ++ [a] by unfold tilePtsPush; simp]
    exact tilePtsPush_foldl_append r [] a

/-- For a coordinate in `[0,1]` the C truncation agrees with `floor`. -/
theorem cTrunc_eq_floor_of_nonneg (q : ℚ) (h : 0 ≤ q) : cTrunc q = ⌊q⌋ := by
  unfold cTrunc
  rw [if_pos h]

/-- Under the normalized-coordinate hypothesis the source quantization is
exactly the spec's floor formula. -/
theorem quantize_eq_floorQuantize (p : Pt) (hx : 0 ≤ p.x) (hy : p.y ≤ 1) :
    quantize p = floorQuantize p := by
  unfold quantize floorQuantize tileExtent
  congr 1
  · exact cTrunc_eq_floor_of_nonneg _ (by nlinarith)
  · exact cTrunc_eq_floor_of_nonneg _ (by nlinarith)

theorem foldl_skip_filter {α β : Type} (p : α → Bool) (f : β → α → β) (l : List α) :
    ∀ init : β,
      l.foldl (fun x y => if p y then f x y else x) init = (l.filter p).foldl f init := by
  induction l with
  | nil => intro init; rfl
  | cons a r ih =>
    intro init
    by_cases h : p a
    · simp [List.filter_cons, h, ih]
    · simp only [Bool.not_eq_true] at h
      simp [List.filter_cons, h, ih]

theorem buildPolygonRings_inner_len (th : ℚ) (poly : List (List Pt)) :
    ∀ acc : List (List IPt), (∀ r ∈ acc, 4 ≤ r.length) →
      ∀ r ∈ poly.foldl
        (fun acc2 ring =>
          let t := toTilePts ring th
          if t.length < 4 then acc2
          else if t.getLast? ≠ t.head? then acc2
          else acc2 ++ [t]) acc,
        4 ≤ r.length := by
  induction poly with
  | nil => intro acc hacc r hr; exact hacc r hr
  | cons ring rest ih =>
    intro acc hacc r hr
    simp only [List.foldl_cons] at hr
    refine ih _ ?_ r hr
    intro r' hr'
    by_cases h1 : (toTilePts ring th).length < 4
    · rw [if_pos h1] at hr'
      exact hacc r' hr'
    · rw [if_neg h1] at hr'
      by_cases h2 : (toTilePts ring th).getLast? ≠ (toTilePts ring th).head?
      · rw [if_pos h2] at hr'
        exact hacc r' hr'
      · rw [if_neg h2] at hr'
        rcases List.mem_append.mp hr' with h | h
        · exact hacc r' h
        · rw [List.mem_singleton.mp h]
          omega

/-- C8: `toTilePts` maps each retained point `p` to
`(⌊p.x·4096 + ½⌋, ⌊(1−p.y)·4096 + ½⌋)` (y flipped), dropping a quantized
point equal to its immediate predecessor; and `buildPolygon` discards every
ring whose quantized point list has fewer than 4 points — every ring it
emits has at least 4 points. -/
theorem C8_quantize_spec (pts : List Pt) (th : ℚ)
    (h01 : ∀ p ∈ pts, 0 ≤ p.x ∧ p.y ≤ 1)
    (mp : List (List (List Pt))) (th2 : ℚ) :
    toTilePts pts th =
      collapseDup (((List.range pts.length).filter
          (fun ii => keptIdx (simplifyKeep pts th) ii)).map
        (fun ii => floorQuantize (pts.getD ii default))) ∧
    (∀ r ∈ buildPolygonRings mp th2, 4 ≤ r.length) := by
  constructor
  · unfold toTilePts
    rw [foldl_skip_filter]
    rw [← List.foldl_map (fun ii => quantize (pts.getD ii default)) tilePtsPush]
    rw [tilePtsPush_foldl_eq_collapse]
    congr 1
    refine List.map_congr_left ?_
    intro ii hii
    have hlt : ii < pts.length := List.mem_range.mp (List.mem_of_mem_filter hii)
    have hmem : pts.getD ii default ∈ pts := by
      rw [List.getD_eq_getElem pts default hlt]
      exact List.getElem_mem hlt
    obtain ⟨hx, hy⟩ := h01 _ hmem
    exact quantize_eq_floorQuantize _ hx hy
  · intro r hr
    unfold buildPolygonRings at hr
    revert r hr
    have : ∀ acc : List (List IPt), (∀ r ∈ acc, 4 ≤ r.length) →
        ∀ r ∈ mp.foldl
          (fun acc poly =>
            if (poly.headD []).length < 4 then acc
            else
              poly.foldl
                (fun acc2 ring =>
                  let t := toTilePts ring th2
                  if t.length < 4 then acc2
                  else if t.getLast? ≠ t.head? then acc2
                  else acc2 ++ [t]) acc) acc,
          4 ≤ r.length := by
      induction mp with
      | nil => intro acc hacc r hr; exact hacc r hr
      | cons poly rest ih =>
        intro acc hacc r hr
        simp only [List.foldl_cons] at hr
        refine ih _ ?_ r hr
        dsimp only
        by_cases h : (poly.headD []).length < 4
        · rw [if_pos h]; exact hacc
        · rw [if_neg h]
          exact buildPolygonRings_inner_len th2 poly acc hacc
    exact this [] (by simp)

/-- Witness for C8 at a concrete square ring in `[0,1]²`. -/
theorem C8_quantize_spec_witness :
    (∀ p ∈ ([⟨0,0⟩, ⟨0,1⟩, ⟨1,1⟩, ⟨1,0⟩, ⟨0,0⟩] : List Pt), 0 ≤ p.x ∧ p.y ≤ 1) ∧
    (toTilePts [⟨0,0⟩, ⟨0,1⟩, ⟨1,1⟩, ⟨1,0⟩, ⟨0,0⟩] 0 =
      collapseDup (((List.range ([⟨0,0⟩, ⟨0,1⟩, ⟨1,1⟩, ⟨1,0⟩, ⟨0,0⟩] : List Pt).length).filter
          (fun ii => keptIdx (simplifyKeep [⟨0,0⟩, ⟨0,1⟩, ⟨1,1⟩, ⟨1,0⟩, ⟨0,0⟩] 0) ii)).map
        (fun ii =>
          floorQuantize (([⟨0,0⟩, ⟨0,1⟩, ⟨1,1⟩, ⟨1,0⟩, ⟨0,0⟩] : List Pt).getD ii default))) ∧
      (∀ r ∈ buildPolygonRings [[[⟨0,0⟩, ⟨0,1⟩, ⟨1,1⟩, ⟨1,0⟩, ⟨0,0⟩]]] 0, 4 ≤ r.length)) :=
  ⟨by decide, C8_quantize_spec _ 0 (by decide) _ 0⟩

/-! ## Coastline stitching (`TileBuilder::buildCoastline`,
`src/tilebuilder.cpp` lines 248–374)

The two splice loops iterate over `std::map`s; we model the maps as sorted
association lists and the loops as fueled recursions whose fuel argument is
exactly the C++ termination measure (claim C10 proves the supplied fuel is
always sufficient, i.e. the loops terminate). -/

/-- A coastline ring / line fragment (`vt_linear_ring`). -/
abbrev Ring := List Pt

/-- A polygon: outer ring followed by inner rings (`vt_polygon`). -/
abbrev CPoly := List Ring

/-- Accumulator for classified rings: `outers` (`vt_multi_polygon`) and
`inners` (`vt_polygon`) of `buildCoastline`. -/
structure RingsAcc where
  outers : List CPoly
  inners : List Ring
deriving DecidableEq, Repr

/-- Result of a fueled coastline phase: `out` = fuel exhausted (never
reached, per C10), `err` = the `perimDistCW < 0` early return, `ok` =
normal completion. -/
inductive CoastRes (α : Type) where
  | out : CoastRes α
  | err : CoastRes α
  | ok : α → CoastRes α
deriving DecidableEq, Repr

/-- `linearRingArea` from `src/tilebuilder.cpp`: the signed shoelace area
`½ Σ (x_{i−1} − x_i)(y_{i−1} + y_i)` with the predecessor taken cyclically. -/
def linearRingArea (ring : Ring) : ℚ :=
  (((ring.getLastD default) :: ring.dropLast).zip ring).foldl
    (fun a qp => a + (qp.1.x - qp.2.x) * (qp.1.y + qp.2.y)) 0 / 2

/-- `pointInPolygon` from `src/tilebuilder.cpp`: even–odd crossing test. -/
def pointInPolygon (poly : List Pt) (p : Pt) : Bool :=
  (((poly.getLastD default) :: poly.dropLast).zip poly).foldl
    (fun inb qp =>
      let pj := qp.1
      let pi := qp.2
      if (decide (pi.y > p.y) != decide (pj.y > p.y)) &&
          decide (p.x < (pj.x - pi.x) * (p.y - pi.y) / (pj.y - pi.y) + pi.x)
      then !inb else inb)
    false

/-- `perimDistCW` from `src/tilebuilder.cpp`: clockwise distance along the
tile perimeter from `(0,0)`; `−1` for a point not on the perimeter (the
release-build behaviour after the failed assertion). -/
def perimDistCW (p : Pt) : ℚ :=
  if p.x = 0 then p.y
  else if p.y = 1 then 1 + p.x
  else if p.x = 1 then 2 + (1 - p.y)
  else if p.y = 0 then 3 + (1 - p.x)
  else -1

/-- `add_ring` from `buildCoastline`: positive signed area ⇒ inner ring,
otherwise a new single-ring outer polygon ("water is on right side of
coastline ways, so outer rings are clockwise (area < 0)"). -/
def addRing (acc : RingsAcc) (ring : Ring) : RingsAcc :=
  if linearRingArea ring > 0 then { acc with inners := acc.inners ++ [ring] }
  else { acc with outers := acc.outers ++ [[ring]] }

/-- Strict weak order `vt_point_order` on map keys: by `x`, then by `y`. -/
def ptLt (a b : Pt) : Bool := decide (a.x < b.x ∨ (a.x = b.x ∧ a.y < b.y))

/-- `std::map::emplace` on the fragment map: sorted insert that keeps an
existing entry with the same key (emplace does not overwrite). -/
def segInsert (k : Pt) (v : Ring) : List (Pt × Ring) → List (Pt × Ring)
  | [] => [(k, v)]
  | (k', v') :: rest =>
    if ptLt k k' then (k, v) :: (k', v') :: rest
    else if k = k' then (k', v') :: rest
    else (k', v') :: segInsert k v rest

/-- `std::map::find` by key. -/
def segFind (key : Pt) : List (Pt × Ring) → Option Ring
  | [] => none
  | (k, v) :: rest => if k = key then some v else segFind key rest

/-- `std::map::erase` by key (a key occurs at most once). -/
def segErase (key : Pt) : List (Pt × Ring) → List (Pt × Ring)
  | [] => []
  | (k, v) :: rest => if k = key then rest else (k, v) :: segErase key rest

/-- The initial partition of `m_coastline`: closed fragments
(`back == front`) go through `add_ring`, open ones are keyed by their first
point. -/
def buildSegments (ways : List Ring) : RingsAcc × List (Pt × Ring) :=
  ways.foldl
    (fun st way =>
      if way.getLastD default = way.headD default then (addRing st.1 way, st.2)
      else (st.1, segInsert (way.headD default) way st.2))
    (⟨[], []⟩, [])

/-- The greedy join loop over the open-fragment map.  `prior` holds the
entries the iterator `ii` has passed, the head of the third argument is the
entry at `ii`.  Each step advances the iterator, closes the current ring
onto itself (`jj == ii`), or splices the fragment starting at
`ring.back()` onto the current one.  Fuel exhaustion returns `none`. -/
def joinLoopF : ℕ → RingsAcc → List (Pt × Ring) → List (Pt × Ring) →
    Option (RingsAcc × List (Pt × Ring))
  | 0, _, _, _ => none
  | _ + 1, acc, prior, [] => some (acc, prior)
  | fuel + 1, acc, prior, (k, ring) :: rest =>
    let back := ring.getLastD default
    if back = k then joinLoopF fuel (addRing acc ring) prior rest
    else
      match segFind back (prior ++ rest) with
      | none => joinLoopF fuel acc (prior ++ [(k, ring)]) rest
      | some r' =>
        joinLoopF fuel acc (segErase back prior) ((k, ring ++ r') :: segErase back rest)

/-- Phases 1–2 of `buildCoastline`: partition the fragments and run the
greedy join loop (with its provably sufficient fuel). -/
def joinedOpen (ways : List Ring) : Option (RingsAcc × List (Pt × Ring)) :=
  let st := buildSegments ways
  joinLoopF (3 * st.2.length + 1) st.1 [] st.2

/-- Sorted insert into the `edgesegs` map keyed by perimeter distance
(`emplace`: an existing key is kept). -/
def edgeInsert (d : ℚ) (v : Ring) : List (ℚ × Ring) → List (ℚ × Ring)
  | [] => [(d, v)]
  | (d', v') :: rest =>
    if d < d' then (d, v) :: (d', v') :: rest
    else if d = d' then (d', v') :: rest
    else (d', v') :: edgeInsert d v rest

/-- `std::map::erase` by perimeter-distance key. -/
def edgeErase (key : ℚ) : List (ℚ × Ring) → List (ℚ × Ring)
  | [] => []
  | (d, v) :: rest => if d = key then rest else (d, v) :: edgeErase key rest

/-- Building the `edgesegs` map: key each remaining open fragment by the
clockwise perimeter distance of its first point, returning `none` on the
`d < 0` early exit. -/
def buildEdgesegs : List (Pt × Ring) → List (ℚ × Ring) → Option (List (ℚ × Ring))
  | [], acc => some acc
  | (_, ring) :: rest, acc =>
    let d := perimDistCW (ring.headD default)
    if d < 0 then none
    else buildEdgesegs rest (edgeInsert d ring acc)

/-- The four tile corners `{(0,0), (0,1), (1,1), (1,0)}` indexed modulo 4. -/
def cornerPt : ℕ → Pt
  | 0 => ⟨0, 0⟩
  | 1 => ⟨0, 1⟩
  | 2 => ⟨1, 1⟩
  | _ => ⟨1, 0⟩

/-- The corner-insertion inner loop: corners for the integers
`c = ⌈dback⌉, ⌈dback⌉+1, …` with `c < dfront`. -/
def cornersList (dback dfront : ℚ) : List Pt :=
  (List.range (⌈dfront⌉ - ⌈dback⌉).toNat).map (fun i => cornerPt ((⌈dback⌉ + i).toNat % 4))

/-- The perimeter edge-walk loop.  The head of the list is the iterator
`ii` (always the minimum key, since every step erases either the current
entry or the spliced one).  Walk clockwise from the current fragment's end,
inserting corners, to the next fragment's start (`lower_bound`, wrapping to
`begin`); splice, or close when the next fragment is the current one. -/
def edgeWalkF : ℕ → RingsAcc → List (ℚ × Ring) → CoastRes RingsAcc
  | 0, _, _ => .out
  | _ + 1, acc, [] => .ok acc
  | fuel + 1, acc, (k, ring) :: rest =>
    let dback := perimDistCW (ring.getLastD default)
    if dback < 0 then .err
    else
      let next := (((k, ring) :: rest).find? (fun e => decide (dback ≤ e.1))).getD (k, ring)
      let dfront := if next.1 < dback then next.1 + 4 else next.1
      let ring2 := ring ++ cornersList dback dfront
      if next.1 = k then
        edgeWalkF fuel (addRing acc (ring2 ++ [next.2.headD default])) rest
      else
        edgeWalkF fuel acc ((k, ring2 ++ next.2) :: edgeErase next.1 rest)

/-- The ring-assembly part of `buildCoastline` (everything before inner-ring
nesting and MVT emission). -/
def assembleRings (ways : List Ring) : CoastRes RingsAcc :=
  match joinedOpen ways with
  | none => .out
  | some (acc, segs) =>
    match buildEdgesegs segs [] with
    | none => .err
    | some es => edgeWalkF (es.length + 1) acc es

/-- The synthesized whole-tile outer ring (`{{0,0},{0,1},{1,1},{1,0},{0,0}}`). -/
def unitSquareRing : Ring := [⟨0, 0⟩, ⟨0, 1⟩, ⟨1, 1⟩, ⟨1, 0⟩, ⟨0, 0⟩]

/-- The inner point chosen for nesting: the first ring point not on a tile
edge, defaulting to the ring's first point. -/
def pickInnerPt (inner : Ring) : Pt :=
  (inner.find? (fun p => decide (p.x ≠ 0 ∧ p.y ≠ 0 ∧ p.x ≠ 1 ∧ p.y ≠ 1))).getD
    (inner.headD default)

/-- Assign one inner ring to the first outer polygon whose outer ring
contains its chosen point (even–odd test); an unmatched inner is dropped. -/
def assignInner (inner : Ring) : List CPoly → List CPoly
  | [] => []
  | o :: os =>
    if pointInPolygon (o.headD []) (pickInnerPt inner) then (o ++ [inner]) :: os
    else o :: assignInner inner os

/-- Inner-ring nesting: with a single outer polygon all inners are appended
to it, otherwise each inner goes to the first containing outer. -/
def nestRings (acc : RingsAcc) : List CPoly :=
  let outers := if acc.outers.isEmpty then [[unitSquareRing]] else acc.outers
  if outers.length = 1 then [outers.headD [] ++ acc.inners]
  else acc.inners.foldl (fun os inner => assignInner inner os) outers

/-- `TileBuilder::buildCoastline`, up to (and excluding) quantized MVT ring
emission: classify and assemble the fragment set into nested polygons. -/
def buildCoastline (ways : List Ring) : CoastRes (List CPoly) :=
  match assembleRings ways with
  | .out => .out
  | .err => .err
  | .ok acc => .ok (nestRings acc)

/-! ### Lemmas for the coastline claims -/

theorem segFind_none_erase (key : Pt) (l : List (Pt × Ring)) (h : segFind key l = none) :
    segErase key l = l := by
  induction l with
  | nil => rfl
  | cons a rest ih =>
    obtain ⟨k, v⟩ := a
    unfold segFind at h
    unfold segErase
    by_cases hk : k = key
    · rw [if_pos hk] at h; exact absurd h (by simp)
    · rw [if_neg hk] at h
      rw [if_neg hk, ih h]

theorem segFind_some_erase_len (key : Pt) (l : List (Pt × Ring)) (v : Ring)
    (h : segFind key l = some v) : (segErase key l).length + 1 = l.length := by
  induction l with
  | nil => simp [segFind] at h
  | cons a rest ih =>
    obtain ⟨k, v'⟩ := a
    unfold segFind at h
    unfold segErase
    by_cases hk : k = key
    · rw [if_pos hk]; simp
    · rw [if_neg hk] at h
      rw [if_neg hk]
      simp only [List.length_cons]
      rw [← ih h]

theorem segFind_cons (key k : Pt) (v : Ring) (rest : List (Pt × Ring)) :
    segFind key ((k, v) :: rest) = if k = key then some v else segFind key rest := rfl

theorem segFind_append_none (key : Pt) (a b : List (Pt × Ring))
    (h : segFind key a = none) : segFind key (a ++ b) = segFind key b := by
  induction a with
  | nil => rfl
  | cons x rest ih =>
    obtain ⟨k, v⟩ := x
    rw [segFind_cons] at h
    rw [List.cons_append, segFind_cons]
    by_cases hk : k = key
    · rw [if_pos hk] at h; exact absurd h (by simp)
    · rw [if_neg hk] at h
      rw [if_neg hk]
      exact ih h

theorem edgeErase_mem_len (d : ℚ) (l : List (ℚ × Ring)) (v : Ring)
    (h : (d, v) ∈ l) : (edgeErase d l).length + 1 = l.length := by
  induction l with
  | nil => simp at h
  | cons a rest ih =>
    obtain ⟨d', v'⟩ := a
    unfold edgeErase
    by_cases hd : d' = d
    · rw [if_pos hd]; simp
    · rw [if_neg hd]
      simp only [List.length_cons]
      rcases List.mem_cons.mp h with hh | hh
      · exact absurd (congrArg Prod.fst hh).symm hd
      · rw [← ih hh]

theorem segErase_len_le (key : Pt) (l : List (Pt × Ring)) :
    (segErase key l).length ≤ l.length := by
  induction l with
  | nil => simp [segErase]
  | cons a rest ih =>
    obtain ⟨k, v⟩ := a
    unfold segErase
    by_cases hk : k = key
    · rw [if_pos hk]; simp
    · rw [if_neg hk]
      simp only [List.length_cons]
      omega

/-- The join loop terminates within its measure `2·(#prior + #segs) + #segs`. -/
theorem joinLoopF_terminates :
    ∀ (fuel : ℕ) (acc : RingsAcc) (prior segs : List (Pt × Ring)),
      2 * (prior.length + segs.length) + segs.length + 1 ≤ fuel →
      joinLoopF fuel acc prior segs ≠ none := by
  intro fuel
  induction fuel with
  | zero => intro acc prior segs h; omega
  | succ fuel ih =>
    intro acc prior segs h
    rcases segs with _ | ⟨⟨k, ring⟩, rest⟩
    · simp [joinLoopF]
    · simp only [List.length_cons] at h
      rw [joinLoopF]
      by_cases hb : ring.getLastD default = k
      · rw [if_pos hb]
        exact ih _ prior rest (by omega)
      · rw [if_neg hb]
        rcases hf : segFind (ring.getLastD default) (prior ++ rest) with _ | r'
        · simp only
          refine ih _ (prior ++ [(k, ring)]) rest ?_
          simp only [List.length_append, List.length_cons, List.length_nil]
          omega
        · simp only
          refine ih _ (segErase (ring.getLastD default) prior)
            ((k, ring ++ r') :: segErase (ring.getLastD default) rest) ?_
          have hEp := segErase_len_le (ring.getLastD default) prior
          have hEr := segErase_len_le (ring.getLastD default) rest
          have hsum : (segErase (ring.getLastD default) prior).length +
              (segErase (ring.getLastD default) rest).length + 1 ≤
              prior.length + rest.length := by
            rcases hp : segFind (ring.getLastD default) prior with _ | vp
            · rw [segFind_none_erase _ _ hp]
              rw [segFind_append_none _ _ _ hp] at hf
              have := segFind_some_erase_len _ rest _ hf
              omega
            · have := segFind_some_erase_len _ prior _ hp
              omega
          simp only [List.length_cons]
          omega

/-- The edge-walk loop terminates within its measure `#edgesegs`. -/
theorem edgeWalkF_terminates :
    ∀ (fuel : ℕ) (acc : RingsAcc) (es : List (ℚ × Ring)),
      es.length + 1 ≤ fuel → edgeWalkF fuel acc es ≠ CoastRes.out := by
  intro fuel
  induction fuel with
  | zero => intro acc es h; omega
  | succ fuel ih =>
    intro acc es h
    rcases es with _ | ⟨⟨k, ring⟩, rest⟩
    · simp [edgeWalkF]
    · simp only [List.length_cons] at h
      rw [edgeWalkF]
      by_cases hd : perimDistCW (ring.getLastD default) < 0
      · rw [if_pos hd]
        simp
      · rw [if_neg hd]
        simp only
        set dback := perimDistCW (ring.getLastD default) with hdback
        set next := (((k, ring) :: rest).find? (fun e => decide (dback ≤ e.1))).getD (k, ring)
          with hnext
        by_cases hk : next.1 = k
        · rw [if_pos hk]
          exact ih _ rest (by omega)
        · rw [if_neg hk]
          have hmem : next ∈ rest := by
            rcases hf : ((k, ring) :: rest).find? (fun e => decide (dback ≤ e.1)) with _ | e
            · rw [hnext, hf] at hk
              simp at hk
            · have he : next = e := by rw [hnext, hf]; rfl
              have := List.mem_of_find?_eq_some hf
              rcases List.mem_cons.mp this with hh | hh
              · exfalso
                apply hk
                rw [he, hh]
              · rw [he]; exact hh
          have hlen := edgeErase_mem_len next.1 rest next.2 (by simpa using hmem)
          refine ih _ ((k, ring ++ cornersList dback (if next.1 < dback then next.1 + 4
            else next.1) ++ next.2) :: edgeErase next.1 rest) ?_
          simp only [List.length_cons]
          omega

/-- C10: `buildCoastline` terminates on every finite fragment set: the
greedy-join loop and the perimeter edge-walk loop complete within their
measures (each step advances the iterator or erases a map entry), so the
fueled model never exhausts the fuel `buildCoastline` supplies. -/
theorem C10_buildCoastline_terminates :
    (∀ (fuel : ℕ) (acc : RingsAcc) (prior segs : List (Pt × Ring)),
        2 * (prior.length + segs.length) + segs.length + 1 ≤ fuel →
        joinLoopF fuel acc prior segs ≠ none) ∧
    (∀ (fuel : ℕ) (acc : RingsAcc) (es : List (ℚ × Ring)),
        es.length + 1 ≤ fuel → edgeWalkF fuel acc es ≠ CoastRes.out) ∧
    (∀ ways : List Ring, buildCoastline ways ≠ CoastRes.out) := by
  refine ⟨joinLoopF_terminates, edgeWalkF_terminates, ?_⟩
  intro ways
  unfold buildCoastline assembleRings joinedOpen
  have hjoin := joinLoopF_terminates (3 * (buildSegments ways).2.length + 1)
    (buildSegments ways).1 [] (buildSegments ways).2 (by simp; omega)
  rcases hj : joinLoopF (3 * (buildSegments ways).2.length + 1)
      (buildSegments ways).1 [] (buildSegments ways).2 with _ | p
  · exact absurd hj hjoin
  · obtain ⟨acc, segs⟩ := p
    simp only
    rcases he : buildEdgesegs segs [] with _ | es
    · simp
    · simp only
      have hwalk := edgeWalkF_terminates (es.length + 1) acc es (le_refl _)
      rcases hw : edgeWalkF (es.length + 1) acc es with _ | _ | acc2
      · exact absurd hw hwalk
      · simp
      · simp

/-- Witness for C10 at concrete inputs. -/
theorem C10_buildCoastline_terminates_witness :
    (2 * (([] : List (Pt × Ring)).length + ([] : List (Pt × Ring)).length) +
        ([] : List (Pt × Ring)).length + 1 ≤ 1 ∧
      joinLoopF 1 ⟨[], []⟩ [] [] ≠ none) ∧
    (([] : List (ℚ × Ring)).length + 1 ≤ 1 ∧ edgeWalkF 1 ⟨[], []⟩ [] ≠ CoastRes.out) ∧
    buildCoastline [[⟨0, 0⟩, ⟨1, 0⟩]] ≠ CoastRes.out :=
  ⟨⟨by decide, C10_buildCoastline_terminates.1 1 ⟨[], []⟩ [] [] (by decide)⟩,
   ⟨by decide, C10_buildCoastline_terminates.2.1 1 ⟨[], []⟩ [] (by decide)⟩,
   C10_buildCoastline_terminates.2.2 [[⟨0, 0⟩, ⟨1, 0⟩]]⟩

/-- C4: in `buildCoastline`, every closed ring with positive signed area is
classified as an inner ring and every ring with negative signed area as an
outer ring; and when classification yields no outer ring, exactly one outer
ring covering the whole tile square `[0,1]×[0,1]` is synthesized (and all
inner rings are attached to it). -/
theorem C4_ring_classification :
    (∀ (acc : RingsAcc) (ring : Ring), 0 < linearRingArea ring →
        addRing acc ring = { acc with inners := acc.inners ++ [ring] }) ∧
    (∀ (acc : RingsAcc) (ring : Ring), linearRingArea ring < 0 →
        addRing acc ring = { acc with outers := acc.outers ++ [[ring]] }) ∧
    (∀ (ways : List Ring) (acc : RingsAcc), assembleRings ways = .ok acc →
        acc.outers = [] → buildCoastline ways = .ok [unitSquareRing :: acc.inners]) := by
  refine ⟨?_, ?_, ?_⟩
  · intro acc ring h
    unfold addRing
    rw [if_pos h]
  · intro acc ring h
    unfold addRing
    rw [if_neg (not_lt.mpr (le_of_lt h))]
  · intro ways acc hasm hout
    unfold buildCoastline
    rw [hasm]
    dsimp only
    unfold nestRings
    rw [hout]
    simp

/-- Witness for C4: a CCW (positive-area) ring goes to `inners`, the CW
unit-square ring to `outers`, and the empty fragment set synthesizes the
full-tile outer. -/
theorem C4_ring_classification_witness :
    (0 < linearRingArea [⟨0,0⟩, ⟨1,0⟩, ⟨1,1⟩, ⟨0,1⟩, ⟨0,0⟩] ∧
      addRing ⟨[], []⟩ [⟨0,0⟩, ⟨1,0⟩, ⟨1,1⟩, ⟨0,1⟩, ⟨0,0⟩] =
        { (⟨[], []⟩ : RingsAcc) with
            inners := [] ++ [[⟨0,0⟩, ⟨1,0⟩, ⟨1,1⟩, ⟨0,1⟩, ⟨0,0⟩]] }) ∧
    (linearRingArea unitSquareRing < 0 ∧
      addRing ⟨[], []⟩ unitSquareRing =
        { (⟨[], []⟩ : RingsAcc) with outers := [] ++ [[unitSquareRing]] }) ∧
    (assembleRings [] = .ok ⟨[], []⟩ ∧
      buildCoastline [] = .ok [unitSquareRing :: ([] : List Ring)]) :=
  ⟨⟨by norm_num [linearRingArea], C4_ring_classification.1 ⟨[], []⟩ _ (by norm_num [linearRingArea])⟩,
   ⟨by norm_num [linearRingArea, unitSquareRing],
    C4_ring_classification.2.1 ⟨[], []⟩ _ (by norm_num [linearRingArea, unitSquareRing])⟩,
   ⟨by decide, C4_ring_classification.2.2 [] ⟨[], []⟩ (by decide) rfl⟩⟩

theorem buildEdgesegs_none (l : List (Pt × Ring))
    (h : ∃ s ∈ l, perimDistCW (s.2.headD default) < 0) :
    ∀ acc, buildEdgesegs l acc = none := by
  induction l with
  | nil => simp at h
  | cons a rest ih =>
    obtain ⟨k, ring⟩ := a
    intro acc
    obtain ⟨s, hs, hbad⟩ := h
    rw [show buildEdgesegs ((k, ring) :: rest) acc =
        (if perimDistCW (ring.headD default) < 0 then none
         else buildEdgesegs rest (edgeInsert (perimDistCW (ring.headD default)) ring acc))
      from rfl]
    rcases List.mem_cons.mp hs with rfl | hmem
    · rw [if_pos hbad]
    · by_cases hd : perimDistCW (ring.headD default) < 0
      · rw [if_pos hd]
      · rw [if_neg hd]
        exact ih ⟨s, hmem, hbad⟩ _

/-- C5: if the clockwise-perimeter-distance computation is applied to a
fragment endpoint that does not lie on the tile edge (`perimDistCW < 0`),
`buildCoastline` returns the error outcome without committing any ocean
geometry: (a) a joined open fragment whose *start* is off the edge makes
the whole of `buildCoastline` return `.err`; (b) an off-edge *end* of the
current fragment makes the edge-walk loop return `.err` immediately. -/
theorem C5_perim_error :
    (∀ (ways : List Ring) (acc : RingsAcc) (segs : List (Pt × Ring)),
        joinedOpen ways = some (acc, segs) →
        (∃ s ∈ segs, perimDistCW (s.2.headD default) < 0) →
        buildCoastline ways = .err) ∧
    (∀ (fuel : ℕ) (acc : RingsAcc) (k : ℚ) (ring : Ring) (rest : List (ℚ × Ring)),
        perimDistCW (ring.getLastD default) < 0 →
        edgeWalkF (fuel + 1) acc ((k, ring) :: rest) = .err) := by
  constructor
  · intro ways acc segs hjoin hbad
    unfold buildCoastline assembleRings
    rw [hjoin]
    dsimp only
    rw [buildEdgesegs_none segs hbad []]
  · intro fuel acc k ring rest h
    rw [edgeWalkF]
    rw [if_pos h]

/-- Witness for C5 at a fragment with both endpoints off the tile edge. -/
theorem C5_perim_error_witness :
    (joinedOpen [[⟨2, 2⟩, ⟨3, 3⟩]] =
        some (⟨[], []⟩, [(⟨2, 2⟩, [⟨2, 2⟩, ⟨3, 3⟩])]) ∧
      (∃ s ∈ [((⟨2, 2⟩ : Pt), [(⟨2, 2⟩ : Pt), ⟨3, 3⟩])],
        perimDistCW (s.2.headD default) < 0) ∧
      buildCoastline [[⟨2, 2⟩, ⟨3, 3⟩]] = .err) ∧
    (perimDistCW (([⟨2, 2⟩] : Ring).getLastD default) < 0 ∧
      edgeWalkF (0 + 1) ⟨[], []⟩ [((0 : ℚ), [⟨2, 2⟩])] = .err) :=
  ⟨⟨by decide, by decide,
    C5_perim_error.1 [[⟨2, 2⟩, ⟨3, 3⟩]] ⟨[], []⟩
      [(⟨2, 2⟩, [⟨2, 2⟩, ⟨3, 3⟩])] (by decide) (by decide)⟩,
   ⟨by decide, C5_perim_error.2 0 ⟨[], []⟩ 0 [⟨2, 2⟩] [] (by decide)⟩⟩

/-! ## Area-based minimum zoom (`AscendTileBuilder::SetMinZoomByArea`,
`src/ascendtiles.cpp` lines 1527–1539)

The tile zoom is `z : ℤ`; the feature is abstracted by the integer bounds
of its GeoDesk bounding box, the value of `bounds.area()` as the code
compares it, and the cached Mercator-m² feature area `Area()`.  The
Mercator circumference enters `metersPerTileAtZoom` only as a constant
factor, so the development is parameterized by it (`C`); every theorem
holds for arbitrary `C`, in particular the actual `2π·6378137`. -/

/-- `metersPerTileAtZoom(z) = EARTH_CIRCUMFERENCE / 2^z`, parameterized by
the circumference constant. -/
def metersPerTileAtZoom (C : ℚ) (z : ℤ) : ℚ := C / 2 ^ z

/-- `maxH = std::numeric_limits<int32_t>::max()/2`. -/
def maxH : ℤ := 2147483647 / 2

/-- The feature attributes `SetMinZoomByArea` reads: the `y` extent of the
GeoDesk bounds, the value of `bounds.area()`, and the feature area
`Area()` in Mercator m². -/
structure FeatView where
  boundsMinY : ℤ
  boundsMaxY : ℤ
  boundsArea : ℚ
  area : ℚ
deriving DecidableEq, Repr

/-- `AscendTileBuilder::SetMinZoomByArea`: reject wrapped geometry
(bounds taller than `maxH`), always pass at `z ≥ 14`, otherwise compare the
explicit `area` argument (when positive), else pre-filter by the bbox area
and finally compare the exact feature area against
`(metersPerTileAtZoom(z−1)/256)²`. -/
def SetMinZoomByArea (C : ℚ) (z : ℤ) (f : FeatView) (area : ℚ) : Bool :=
  if f.boundsMaxY - f.boundsMinY > maxH then false
  else if 14 ≤ z then true
  else
    let minarea := (metersPerTileAtZoom C (z - 1) / 256) ^ 2
    if area > 0 then decide (area ≥ minarea)
    else if f.boundsArea < minarea then false
    else decide (f.area ≥ minarea)

/-- Counterexample to C3 as stated: a feature whose GeoDesk bounds are
taller than `maxH` (the wrapped-geometry reject) makes `SetMinZoomByArea`
return `false` even at `z = 14` and even though its area exceeds every
threshold — contradicting both "at z = 14 it always returns true" and
"returns true exactly when the area is ≥ the threshold". -/
theorem C3_minzoom_counterexample :
    SetMinZoomByArea 40075017 14 ⟨0, 2 ^ 31, 10 ^ 13, 10 ^ 12⟩ 0 = false ∧
    (10 ^ 12 : ℚ) ≥ (metersPerTileAtZoom 40075017 (14 - 1) / 256) ^ 2 := by
  constructor
  · decide
  · unfold metersPerTileAtZoom
    rw [show ((14 : ℤ) - 1) = (13 : ℕ) by norm_num]
    rw [zpow_natCast]
    norm_num

/-- C3 (amended): for every feature whose bounds pass the wrapped-geometry
filter (`maxY − minY ≤ maxH`) and whose exact area does not exceed its
bounding-box area (the geometric fact making the pre-filter tight),
`SetMinZoomByArea` with no explicit area argument returns true exactly when
`z ≥ 14` or the feature's Mercator-m² area is at least
`(metersPerTileAtZoom(z−1)/256)²`; in particular the bbox pre-filter never
changes the accept/reject decision. -/
theorem C3_minzoom_by_area (C : ℚ) (z : ℤ) (f : FeatView)
    (hB : f.boundsMaxY - f.boundsMinY ≤ maxH)
    (hA : f.area ≤ f.boundsArea) :
    SetMinZoomByArea C z f 0 = true ↔
      (14 ≤ z ∨ f.area ≥ (metersPerTileAtZoom C (z - 1) / 256) ^ 2) := by
  unfold SetMinZoomByArea
  rw [if_neg (not_lt.mpr hB)]
  by_cases h14 : 14 ≤ z
  · rw [if_pos h14]
    simp [h14]
  · rw [if_neg h14]
    simp only [gt_iff_lt, lt_self_iff_false, if_false, if_neg (lt_irrefl (0 : ℚ))]
    by_cases hpre : f.boundsArea < (metersPerTileAtZoom C (z - 1) / 256) ^ 2
    · rw [if_pos hpre]
      simp only [Bool.false_eq_true, false_iff]
      push_neg
      refine ⟨by omega, ?_⟩
      exact lt_of_le_of_lt hA hpre
    · rw [if_neg hpre]
      simp [h14]

/-- Witness for the amended C3. -/
theorem C3_minzoom_by_area_witness :
    ((⟨0, 0, 4, 4⟩ : FeatView).boundsMaxY - (⟨0, 0, 4, 4⟩ : FeatView).boundsMinY ≤ maxH) ∧
    ((⟨0, 0, 4, 4⟩ : FeatView).area ≤ (⟨0, 0, 4, 4⟩ : FeatView).boundsArea) ∧
    (SetMinZoomByArea 1 13 ⟨0, 0, 4, 4⟩ 0 = true ↔
      (14 ≤ (13 : ℤ) ∨ (⟨0, 0, 4, 4⟩ : FeatView).area ≥
        (metersPerTileAtZoom 1 (13 - 1) / 256) ^ 2)) :=
  ⟨by decide, by norm_num, C3_minzoom_by_area 1 13 ⟨0, 0, 4, 4⟩ (by decide) (by norm_num)⟩

/-! ## Place-node classification (`AscendTileBuilder::ProcessNode`,
`src/ascendtiles.cpp` lines 938–974) -/

/-- The minimum zoom the `place=<v>` branch of `ProcessNode` computes,
translated from the C++ if-chain (booleans counted as `0/1` in the
`country` and `city` arithmetic; `pop` is the parsed `population` tag,
`0` when absent). -/
def placeMinZoomSrc (place : String) (pop : ℚ) : ℤ :=
  if place = "continent" then 0
  else if place = "country" then
    3 - (if pop > 50 * 10 ^ 6 then 1 else 0) - (if pop > 20 * 10 ^ 6 then 1 else 0)
  else if place = "state" ∨ place = "province" then 4
  else if place = "city" then
    5 - (if pop > 5 * 10 ^ 6 then 1 else 0) - (if pop > 5 * 10 ^ 5 then 1 else 0)
  else if place = "town" then (if pop > 8000 then 7 else 8)
  else if place = "village" then (if pop > 2000 then 9 else 10)
  else if place = "suburb" then 11
  else if place = "hamlet" then 12
  else if place = "quarter" then 12
  else 13

/-- Whether the `place` branch commits the node to the `place` layer: it
returns early iff `!MinZoom(mz)`, i.e. iff the tile zoom is below the
computed minimum. -/
def processNodePlaceWrites (z : ℤ) (place : String) (pop : ℚ) : Bool :=
  decide (placeMinZoomSrc place pop ≤ z)

/-- The zoom table exactly as the claim states it (the village population
threshold, 2000, is taken from the source since the claim spells out only
"9 or 10 by population"). -/
def placeTableSpec (place : String) (pop : ℚ) : ℤ :=
  if place = "continent" then 0
  else if place = "country" then
    (if pop > 50 * 10 ^ 6 then 1 else if pop > 20 * 10 ^ 6 then 2 else 3)
  else if place = "state" ∨ place = "province" then 4
  else if place = "city" then
    (if pop > 5 * 10 ^ 6 then 3 else if pop > 5 * 10 ^ 5 then 4 else 5)
  else if place = "town" then (if pop > 8000 then 7 else 8)
  else if place = "village" then (if pop > 2000 then 9 else 10)
  else if place = "suburb" then 11
  else if place = "hamlet" then 12
  else if place = "quarter" then 12
  else 13

/-- C9: the classifier writes a `place=<v>` node to the `place` layer
exactly when the tile zoom is at least the claim's table minimum, and the
source's boolean-subtraction arithmetic computes exactly that table. -/
theorem C9_place_minzoom (place : String) (pop : ℚ) (z : ℤ) :
    placeMinZoomSrc place pop = placeTableSpec place pop ∧
    (processNodePlaceWrites z place pop = true ↔ placeTableSpec place pop ≤ z) := by
  have htab : placeMinZoomSrc place pop = placeTableSpec place pop := by
    unfold placeMinZoomSrc placeTableSpec
    by_cases h1 : place = "continent"
    · simp [h1]
    · rw [if_neg h1, if_neg h1]
      by_cases h2 : place = "country"
      · rw [if_pos h2, if_pos h2]
        by_cases p50 : pop > 50 * 10 ^ 6
        · have p20 : pop > 20 * 10 ^ 6 := lt_trans (by norm_num) p50
          rw [if_pos p50, if_pos p50, if_pos p20]
          norm_num
        · rw [if_neg p50, if_neg p50]
          by_cases p20 : pop > 20 * 10 ^ 6
          · rw [if_pos p20, if_pos p20]
            norm_num
          · rw [if_neg p20, if_neg p20]
            norm_num
      · rw [if_neg h2, if_neg h2]
        by_cases h3 : place = "state" ∨ place = "province"
        · rw [if_pos h3, if_pos h3]
        · rw [if_neg h3, if_neg h3]
          by_cases h4 : place = "city"
          · rw [if_pos h4, if_pos h4]
            by_cases p5M : pop > 5 * 10 ^ 6
            · have p05 : pop > 5 * 10 ^ 5 := lt_trans (by norm_num) p5M
              rw [if_pos p5M, if_pos p5M, if_pos p05]
              norm_num
            · rw [if_neg p5M, if_neg p5M]
              by_cases p05 : pop > 5 * 10 ^ 5
              · rw [if_pos p05, if_pos p05]
                norm_num
              · rw [if_neg p05, if_neg p05]
                norm_num
          · rw [if_neg h4, if_neg h4]
  refine ⟨htab, ?_⟩
  unfold processNodePlaceWrites
  rw [htab]
  simp

/-! ## The HTTP request path and build queue (`src/server.cpp`,
`GET /v1/:z/:x/:y` handler, lines 303–396, and the persister)

A small-step interleaving model of the handler's control flow: each request
checks the tile cache, then under `buildMutex` either joins an existing
`buildQueue` future or enqueues a build, waits on the shared future
(possibly timing out after 30 s), and on success schedules the single
persister worker, which writes the blob and then erases the queue entry.
`buildTile` is abstracted by a deterministic function `tileResult`; the
persister's DB write and subsequent mutex-guarded erase are taken as one
atomic step (no claim distinguishes the gap between them). -/

/-- The tile id triple used by the server request path. -/
structure TileIdM where
  x : ℤ
  y : ℤ
  z : ℤ
deriving DecidableEq, Repr

/-- Tile blob bytes; `""` is the "no content" result. -/
abbrev Blob := String

/-- The deterministic environment: what `buildTile(world, ocean, id)`
returns for each tile. -/
structure ServerCfg where
  tileResult : TileIdM → Blob

/-- Response outcome of a request (200 with bytes, 404, 408). -/
inductive Resp where
  | ok : Blob → Resp
  | notFound : Resp
  | timeout : Resp
deriving DecidableEq, Repr

/-- Control state of one HTTP request thread. -/
inductive ReqPhase where
  | start : ReqPhase
  | atLock : ReqPhase
  | waiting : ℕ → Bool → ReqPhase
  | done : Resp → ReqPhase
deriving DecidableEq, Repr

/-- Association-list lookup (`std::map::find`). -/
def alookup {α β : Type} [DecidableEq α] (k : α) : List (α × β) → Option β
  | [] => none
  | (k', v) :: rest => if k' = k then some v else alookup k rest

/-- Association-list erase of the (first) entry with the given key. -/
def aerase {α β : Type} [DecidableEq α] (k : α) : List (α × β) → List (α × β)
  | [] => []
  | (k', v) :: rest => if k' = k then rest else (k', v) :: aerase k rest

/-- Association-list upsert (`REPLACE INTO` / map assignment). -/
def aset {α β : Type} [DecidableEq α] (k : α) (v : β) : List (α × β) → List (α × β)
  | [] => [(k, v)]
  | (k', v') :: rest => if k' = k then (k, v) :: rest else (k', v') :: aset k v rest

/-- Global server state: the blob store, the `buildQueue` (TileId → future
id), the futures (`none` = build still running), the builder job queue, the
FIFO persister queue, the request threads, and the list of `buildTile`
invocations so far. -/
structure SrvState where
  cache : List (TileIdM × Blob)
  queue : List (TileIdM × ℕ)
  futures : List (ℕ × Option Blob)
  nextFut : ℕ
  buildJobs : List (ℕ × TileIdM)
  persistJobs : List (TileIdM × Blob)
  reqs : List (TileIdM × ReqPhase)
  builds : List TileIdM
deriving DecidableEq, Repr

/-- Interleaved atomic actions: a request's cache probe, its
`buildMutex`-guarded queue access, a builder worker finishing `buildTile`
for future `f`, a request returning from the future wait (result ready or
30-s timeout), and the persister processing its queue head. -/
inductive Act where
  | checkCache : ℕ → Act
  | lockStep : ℕ → Act
  | runBuild : ℕ → Act
  | futureReady : ℕ → Act
  | timeout : ℕ → Act
  | persistStep : Act
deriving DecidableEq, Repr

/-- One atomic step of the server; `none` when the action is not enabled in
`s`. -/
def step (cfg : ServerCfg) (a : Act) (s : SrvState) : Option SrvState :=
  match a with
  | .checkCache r =>
    match s.reqs.get? r with
    | some (t, .start) =>
      match alookup t s.cache with
      | some b => some { s with reqs := s.reqs.set r (t, .done (.ok b)) }
      | none => some { s with reqs := s.reqs.set r (t, .atLock) }
    | _ => none
  | .lockStep r =>
    match s.reqs.get? r with
    | some (t, .atLock) =>
      match alookup t s.queue with
      | some f => some { s with reqs := s.reqs.set r (t, .waiting f false) }
      | none =>
        some { s with
          queue := s.queue ++ [(t, s.nextFut)]
          futures := s.futures ++ [(s.nextFut, none)]
          buildJobs := s.buildJobs ++ [(s.nextFut, t)]
          nextFut := s.nextFut + 1
          reqs := s.reqs.set r (t, .waiting s.nextFut true) }
    | _ => none
  | .runBuild f =>
    match alookup f s.buildJobs with
    | some t =>
      some { s with
        buildJobs := aerase f s.buildJobs
        futures := aset f (some (cfg.tileResult t)) s.futures
        builds := s.builds ++ [t] }
    | none => none
  | .futureReady r =>
    match s.reqs.get? r with
    | some (t, .waiting f savetile) =>
      match alookup f s.futures with
      | some (some b) =>
        if b = "" then some { s with reqs := s.reqs.set r (t, .done .notFound) }
        else if savetile then
          some { s with
            persistJobs := s.persistJobs ++ [(t, b)]
            reqs := s.reqs.set r (t, .done (.ok b)) }
        else some { s with reqs := s.reqs.set r (t, .done (.ok b)) }
      | _ => none
    | _ => none
  | .timeout r =>
    match s.reqs.get? r with
    | some (t, .waiting _ _) => some { s with reqs := s.reqs.set r (t, .done .timeout) }
    | _ => none
  | .persistStep =>
    match s.persistJobs with
    | [] => none
    | (t, b) :: rest =>
      some { s with
        cache := aset t b s.cache
        queue := aerase t s.queue
        persistJobs := rest }

/-- Run a sequence of interleaved actions. -/
def run (cfg : ServerCfg) : SrvState → List Act → Option SrvState
  | s, [] => some s
  | s, a :: acts =>
    match step cfg a s with
    | none => none
    | some s' => run cfg s' acts

/-- Initial state: empty cache and queues, one fresh request per listed
tile. -/
def initState (tiles : List TileIdM) : SrvState :=
  ⟨[], [], [], 0, [], [], tiles.map (fun t => (t, .start)), []⟩

/-! ### Association-list lemmas for the server model -/

theorem alookup_aset_self {α β : Type} [DecidableEq α] (k : α) (v : β) (l : List (α × β)) :
    alookup k (aset k v l) = some v := by
  induction l with
  | nil => simp [aset, alookup]
  | cons a rest ih =>
    obtain ⟨k', v'⟩ := a
    unfold aset
    by_cases hk : k' = k
    · rw [if_pos hk]
      unfold alookup
      rw [if_pos rfl]
    · rw [if_neg hk]
      unfold alookup
      rw [if_neg hk]
      exact ih

theorem aerase_sublist {α β : Type} [DecidableEq α] (k : α) (l : List (α × β)) :
    (aerase k l).Sublist l := by
  induction l with
  | nil => simp [aerase]
  | cons a rest ih =>
    obtain ⟨k', v'⟩ := a
    unfold aerase
    by_cases hk : k' = k
    · rw [if_pos hk]
      exact List.sublist_cons_self _ _
    · rw [if_neg hk]
      exact List.Sublist.cons₂ _ ih

theorem mem_not_mem_aerase_key {α β : Type} [DecidableEq α] (k : α) (l : List (α × β))
    (x : α × β) (hm : x ∈ l) (hn : x ∉ aerase k l) : x.1 = k := by
  induction l with
  | nil => simp at hm
  | cons a rest ih =>
    obtain ⟨k', v'⟩ := a
    unfold aerase at hn
    by_cases hk : k' = k
    · rw [if_pos hk] at hn
      rcases List.mem_cons.mp hm with rfl | hm2
      · exact hk
      · exact absurd hm2 hn
    · rw [if_neg hk] at hn
      rcases List.mem_cons.mp hm with rfl | hm2
      · exact absurd (List.mem_cons_self _ _) hn
      · exact ih hm2 (fun hc => hn (List.mem_cons_of_mem _ hc))

theorem alookup_none_not_key {α β : Type} [DecidableEq α] (k : α) (l : List (α × β))
    (h : alookup k l = none) : k ∉ l.map Prod.fst := by
  induction l with
  | nil => simp
  | cons a rest ih =>
    obtain ⟨k', v'⟩ := a
    unfold alookup at h
    by_cases hk : k' = k
    · rw [if_pos hk] at h; exact absurd h (by simp)
    · rw [if_neg hk] at h
      simp only [List.map_cons, List.mem_cons]
      push_neg
      exact ⟨fun hc => hk hc.symm, ih h⟩

theorem get?_set_self {α : Type} (l : List α) (r : ℕ) (v : α) (h : r < l.length) :
    (l.set r v).get? r = some v := by
  induction l generalizing r with
  | nil => simp at h
  | cons a rest ih =>
    cases r with
    | zero => rfl
    | succ r =>
      simp only [List.set_cons_succ, List.get?_cons_succ]
      exact ih r (by simpa using h)

/-- Case analysis: a step leaves the queue unchanged, inserts a fresh
entry guarded by a failed lookup (`lockStep`), or is the persister erasing
the head job's tile after writing its blob. -/
theorem step_queue_cases (cfg : ServerCfg) (a : Act) (s s' : SrvState)
    (hstep : step cfg a s = some s') :
    s'.queue = s.queue ∨
    (∃ t, alookup t s.queue = none ∧ s'.queue = s.queue ++ [(t, s.nextFut)]) ∨
    (a = .persistStep ∧ ∃ t b rest, s.persistJobs = (t, b) :: rest ∧
      s'.queue = aerase t s.queue ∧ s'.cache = aset t b s.cache) := by
  cases a with
  | checkCache r =>
    simp only [step] at hstep
    split at hstep
    · split at hstep
      · injection hstep with h; subst h; exact Or.inl rfl
      · injection hstep with h; subst h; exact Or.inl rfl
    · exact Option.noConfusion hstep
  | lockStep r =>
    simp only [step] at hstep
    split at hstep
    · rename_i t heq
      split at hstep
      · injection hstep with h; subst h; exact Or.inl rfl
      · rename_i hnone
        injection hstep with h
        subst h
        exact Or.inr (Or.inl ⟨t, hnone, rfl⟩)
    · exact Option.noConfusion hstep
  | runBuild f =>
    simp only [step] at hstep
    split at hstep
    · injection hstep with h; subst h; exact Or.inl rfl
    · exact Option.noConfusion hstep
  | futureReady r =>
    simp only [step] at hstep
    split at hstep
    · split at hstep
      · split at hstep
        · injection hstep with h; subst h; exact Or.inl rfl
        · split at hstep
          · injection hstep with h; subst h; exact Or.inl rfl
          · injection hstep with h; subst h; exact Or.inl rfl
      · exact Option.noConfusion hstep
    · exact Option.noConfusion hstep
  | timeout r =>
    simp only [step] at hstep
    split at hstep
    · injection hstep with h; subst h; exact Or.inl rfl
    · exact Option.noConfusion hstep
  | persistStep =>
    simp only [step] at hstep
    split at hstep
    · exact Option.noConfusion hstep
    · rename_i t b rest heq
      injection hstep with h
      subst h
      exact Or.inr (Or.inr ⟨rfl, t, b, rest, heq, rfl, rfl⟩)

/-- Queue keys stay duplicate-free across any step: the only insertion is
guarded by a failed lookup, the only removal is the persister's erase. -/
theorem step_queue_nodup (cfg : ServerCfg) (a : Act) (s s' : SrvState)
    (hstep : step cfg a s = some s')
    (hnd : (s.queue.map Prod.fst).Nodup) : (s'.queue.map Prod.fst).Nodup := by
  rcases step_queue_cases cfg a s s' hstep with h | ⟨t, hnone, h⟩ | ⟨_, t, b, rest, _, h, _⟩
  · rw [h]; exact hnd
  · rw [h]
    simp only [List.map_append]
    rw [List.nodup_append]
    refine ⟨hnd, by simp, ?_⟩
    intro x hx
    simp only [List.map_cons, List.map_nil, List.mem_cons, List.not_mem_nil, or_false]
    intro hxt
    rw [hxt] at hx
    exact alookup_none_not_key _ _ hnone hx
  · rw [h]
    exact hnd.sublist (List.Sublist.map _ (aerase_sublist _ _))

theorem run_queue_nodup (cfg : ServerCfg) (acts : List Act) :
    ∀ s s', run cfg s acts = some s' →
      (s.queue.map Prod.fst).Nodup → (s'.queue.map Prod.fst).Nodup := by
  induction acts with
  | nil =>
    intro s s' h hnd
    unfold run at h
    injection h with h
    rw [← h]; exact hnd
  | cons a acts ih =>
    intro s s' h hnd
    unfold run at h
    rcases hs : step cfg a s with _ | s₁
    · rw [hs] at h; exact absurd h (by simp)
    · rw [hs] at h
      exact ih s₁ s' h (step_queue_nodup cfg a s s₁ hs hnd)

/-- Any step that removes a queue entry is a persister step whose queue head
is that tile's blob, and the blob is in the cache afterwards. -/
theorem step_queue_remove (cfg : ServerCfg) (a : Act) (s s' : SrvState)
    (t : TileIdM) (f : ℕ) (hstep : step cfg a s = some s')
    (hm : (t, f) ∈ s.queue) (hn : (t, f) ∉ s'.queue) :
    a = .persistStep ∧ ∃ b rest, s.persistJobs = (t, b) :: rest ∧
      alookup t s'.cache = some b := by
  rcases step_queue_cases cfg a s s' hstep with h | ⟨t', _, h⟩ |
    ⟨ha, t', b, rest, hp, hq, hc⟩
  · rw [h] at hn; exact absurd hm hn
  · rw [h] at hn
    exact absurd (List.mem_append_left _ hm) hn
  · have hkey : t = t' := by
      rw [hq] at hn
      exact mem_not_mem_aerase_key t' s.queue (t, f) hm hn
    subst hkey
    refine ⟨ha, b, rest, hp, ?_⟩
    rw [hc]
    exact alookup_aset_self _ _ _

/-- Counterexample to C1 as stated: when the build returns empty bytes the
handler answers 404 *before* the `if(savetile)` persist block, so the
`buildQueue` entry is never erased.  After this four-step trace the request
is finished (404), the future is resolved, no build is in progress and no
persistence is pending — yet the entry is still in the queue. -/
theorem C1_queue_counterexample :
    ∃ s, run ⟨fun _ => ""⟩ (initState [⟨0, 0, 0⟩])
        [.checkCache 0, .lockStep 0, .runBuild 0, .futureReady 0] = some s ∧
      alookup ⟨0, 0, 0⟩ s.queue = some 0 ∧
      alookup 0 s.futures = some (some "") ∧
      s.persistJobs = [] ∧ s.buildJobs = [] ∧
      s.reqs = [(⟨0, 0, 0⟩, .done .notFound)] :=
  ⟨_, rfl, by decide, by decide, by decide, by decide, by decide⟩

/-- C1 (amended): the `buildQueue` holds at most one entry per `TileId`
(keys stay duplicate-free along every trace from an initial state), and an
entry is removed only by the persister, immediately after that tile's blob
has been written to the cache — so a removal implies the blob is
persisted.  (Presence is *not* bounded by build-in-progress/persist-pending:
entries of empty builds and of timed-out requests are never removed, per
`C1_queue_counterexample`.) -/
theorem C1_queue_lifecycle (cfg : ServerCfg) :
    (∀ (tiles : List TileIdM) (acts : List Act) (s : SrvState),
        run cfg (initState tiles) acts = some s → (s.queue.map Prod.fst).Nodup) ∧
    (∀ (a : Act) (s s' : SrvState) (t : TileIdM) (f : ℕ),
        step cfg a s = some s' → (t, f) ∈ s.queue → (t, f) ∉ s'.queue →
        a = .persistStep ∧ ∃ b rest, s.persistJobs = (t, b) :: rest ∧
          alookup t s'.cache = some b) := by
  constructor
  · intro tiles acts s h
    exact run_queue_nodup cfg acts (initState tiles) s h (by simp [initState])
  · intro a s s' t f hstep hm hn
    exact step_queue_remove cfg a s s' t f hstep hm hn

/-- Witness for the amended C1. -/
theorem C1_queue_lifecycle_witness :
    (run ⟨fun _ => ""⟩ (initState []) [] = some (initState []) ∧
      ((initState []).queue.map Prod.fst).Nodup) ∧
    (step ⟨fun _ => ""⟩ .persistStep ⟨[], [(⟨0, 0, 0⟩, 0)], [(0, some "B")], 1, [], [(⟨0, 0, 0⟩, "B")], [], []⟩ =
        some ⟨[(⟨0, 0, 0⟩, "B")], [], [(0, some "B")], 1, [], [], [], []⟩ ∧
      ((⟨0, 0, 0⟩, 0) ∈ ([(⟨0, 0, 0⟩, 0)] : List (TileIdM × ℕ))) ∧
      Act.persistStep = Act.persistStep ∧
      ∃ b rest, ([(⟨0, 0, 0⟩, "B")] : List (TileIdM × Blob)) = (⟨0, 0, 0⟩, b) :: rest ∧
        alookup (⟨0, 0, 0⟩ : TileIdM)
          (⟨[(⟨0, 0, 0⟩, "B")], [], [(0, some "B")], 1, [], [], [], []⟩ : SrvState).cache = some b) :=
  ⟨⟨rfl, (C1_queue_lifecycle ⟨fun _ => ""⟩).1 [] [] (initState []) rfl⟩,
   ⟨by decide, by decide,
    ((C1_queue_lifecycle ⟨fun _ => ""⟩).2 .persistStep
      ⟨[], [(⟨0, 0, 0⟩, 0)], [(0, some "B")], 1, [], [(⟨0, 0, 0⟩, "B")], [], []⟩
      ⟨[(⟨0, 0, 0⟩, "B")], [], [(0, some "B")], 1, [], [], [], []⟩
      ⟨0, 0, 0⟩ 0 (by decide) (by decide) (by decide)).1,
    ((C1_queue_lifecycle ⟨fun _ => ""⟩).2 .persistStep
      ⟨[], [(⟨0, 0, 0⟩, 0)], [(0, some "B")], 1, [], [(⟨0, 0, 0⟩, "B")], [], []⟩
      ⟨[(⟨0, 0, 0⟩, "B")], [], [(0, some "B")], 1, [], [], [], []⟩
      ⟨0, 0, 0⟩ 0 (by decide) (by decide) (by decide)).2⟩⟩

/-- Counterexample to C2 as stated: two concurrent GETs for the same tile,
both past their cache miss, can still trigger *two* invocations of the tile
build function — the first request's build, reply and persist (which erases
the queue entry) can all complete before the second request reaches the
queue lock, exactly the race the source comments acknowledge ("small chance
that we could repeat tile build").  After this trace `builds` records two
invocations for the tile. -/
theorem C2_coalescing_counterexample :
    ∃ s, run ⟨fun _ => "B"⟩ (initState [⟨0, 0, 0⟩, ⟨0, 0, 0⟩])
        [.checkCache 0, .checkCache 1, .lockStep 0, .runBuild 0, .futureReady 0,
         .persistStep, .lockStep 1, .runBuild 1, .futureReady 1] = some s ∧
      s.builds = [⟨0, 0, 0⟩, ⟨0, 0, 0⟩] ∧
      s.reqs = [(⟨0, 0, 0⟩, .done (.ok "B")), (⟨0, 0, 0⟩, .done (.ok "B"))] :=
  ⟨_, rfl, by decide, by decide⟩

/-- C2 (amended): request coalescing works whenever the second request's
queue access happens while the entry is present — a lock step that finds an
entry joins its shared future and enqueues *no* second build (the state
changes only in that request's phase), and every request observing a
resolved shared future answers with exactly the future's bytes, so all
requests sharing one future return identical bodies. -/
theorem C2_request_coalescing (cfg : ServerCfg) :
    (∀ (s : SrvState) (r : ℕ) (t : TileIdM) (f : ℕ),
        s.reqs.get? r = some (t, .atLock) → alookup t s.queue = some f →
        step cfg (.lockStep r) s =
          some { s with reqs := s.reqs.set r (t, .waiting f false) }) ∧
    (∀ (s : SrvState) (r : ℕ) (t : TileIdM) (f : ℕ) (sv : Bool) (b : Blob),
        s.reqs.get? r = some (t, .waiting f sv) → alookup f s.futures = some (some b) →
        b ≠ "" → ∃ s', step cfg (.futureReady r) s = some s' ∧
          s'.reqs.get? r = some (t, .done (.ok b))) := by
  constructor
  · intro s r t f hget hq
    simp only [step, hget, hq]
  · intro s r t f sv b hget hfut hb
    obtain ⟨hlt, -⟩ := List.get?_eq_some.mp hget
    cases sv with
    | false =>
      refine ⟨{ s with reqs := s.reqs.set r (t, .done (.ok b)) }, ?_, ?_⟩
      · simp only [step, hget, hfut]
        rw [if_neg hb]
        simp
      · exact get?_set_self _ _ _ hlt
    | true =>
      refine ⟨{ s with
          persistJobs := s.persistJobs ++ [(t, b)]
          reqs := s.reqs.set r (t, .done (.ok b)) }, ?_, ?_⟩
      · simp only [step, hget, hfut]
        rw [if_neg hb]
        simp
      · exact get?_set_self _ _ _ hlt

/-- Witness for the amended C2. -/
theorem C2_request_coalescing_witness :
    ((⟨[], [(⟨0, 0, 0⟩, 5)], [(5, none)], 6, [(5, ⟨0, 0, 0⟩)], [],
        [(⟨0, 0, 0⟩, .atLock)], []⟩ : SrvState).reqs.get? 0 =
      some (⟨0, 0, 0⟩, .atLock) ∧
      alookup (⟨0, 0, 0⟩ : TileIdM)
        (⟨[], [(⟨0, 0, 0⟩, 5)], [(5, none)], 6, [(5, ⟨0, 0, 0⟩)], [],
          [(⟨0, 0, 0⟩, .atLock)], []⟩ : SrvState).queue = some 5 ∧
      step ⟨fun _ => "B"⟩ (.lockStep 0)
        ⟨[], [(⟨0, 0, 0⟩, 5)], [(5, none)], 6, [(5, ⟨0, 0, 0⟩)], [],
          [(⟨0, 0, 0⟩, .atLock)], []⟩ =
        some { (⟨[], [(⟨0, 0, 0⟩, 5)], [(5, none)], 6, [(5, ⟨0, 0, 0⟩)], [],
            [(⟨0, 0, 0⟩, .atLock)], []⟩ : SrvState) with
          reqs := [(⟨0, 0, 0⟩, .atLock)].set 0 (⟨0, 0, 0⟩, .waiting 5 false) }) ∧
    (("B" : Blob) ≠ "" ∧
      ∃ s', step ⟨fun _ => "B"⟩ (.futureReady 0)
          ⟨[], [(⟨0, 0, 0⟩, 5)], [(5, some "B")], 6, [], [],
            [(⟨0, 0, 0⟩, .waiting 5 false)], []⟩ = some s' ∧
        s'.reqs.get? 0 = some (⟨0, 0, 0⟩, .done (.ok "B"))) :=
  ⟨⟨by decide, by decide,
    (C2_request_coalescing ⟨fun _ => "B"⟩).1 _ 0 ⟨0, 0, 0⟩ 5 (by decide) (by decide)⟩,
   ⟨by decide,
    (C2_request_coalescing ⟨fun _ => "B"⟩).2 _ 0 ⟨0, 0, 0⟩ 5 false "B"
      (by decide) (by decide) (by decide)⟩⟩

/-! ## Visvalingam–Whyatt simplification (`visvalingam` and `minHeap`,
`src/tilebuilder.h`, second part, lines 144–341)

The heap array `h` of `visItem*` is modelled as a `List ℕ` of vertex
indices (`ptidx` identifies an item uniquely); the item fields become
functions from vertex index: `area`, the linked-list `next`/`prev`
pointers, and the heap back-pointer `index`.  `INFINITY` is the top
element of `WithTop ℚ`. -/

/-- The heap parent position, `((i + 1) >> 1) - 1`. -/
def hpar (c : ℕ) : ℕ := (c + 1) / 2 - 1

/-- Swap the heap entries at positions `i` and `j` (the two symmetric
`h[...] = ...` assignments of `up`/`down`). -/
def hswap (h : List ℕ) (i j : ℕ) : List ℕ :=
  (h.set i (h.getD j 0)).set j (h.getD i 0)

theorem getD_set_self (l : List ℕ) (i a : ℕ) (h : i < l.length) :
    (l.set i a).getD i 0 = a := by
  rw [List.getD_eq_getElem _ _ (by simpa using h)]
  simp [List.getElem_set, h]

theorem getD_set_ne (l : List ℕ) (i c a : ℕ) (h : i ≠ c) :
    (l.set i a).getD c 0 = l.getD c 0 := by
  unfold List.getD
  rw [List.get?_eq_getElem?, List.get?_eq_getElem?, List.getElem?_set_ne h]

theorem getD_mem (l : List ℕ) (c : ℕ) (h : c < l.length) : l.getD c 0 ∈ l := by
  rw [List.getD_eq_getElem _ _ h]
  exact List.getElem_mem h

theorem mem_getD (l : List ℕ) (x : ℕ) (h : x ∈ l) :
    ∃ c, c < l.length ∧ l.getD c 0 = x := by
  obtain ⟨i, hi, he⟩ := List.mem_iff_getElem.mp h
  exact ⟨i, hi, by rw [List.getD_eq_getElem _ _ hi]; exact he⟩

theorem length_hswap (h : List ℕ) (i j : ℕ) : (hswap h i j).length = h.length := by
  simp [hswap]

theorem getD_hswap (h : List ℕ) (i j c : ℕ) (hi : i < h.length) (hj : j < h.length) :
    (hswap h i j).getD c 0 =
      if c = j then h.getD i 0 else if c = i then h.getD j 0 else h.getD c 0 := by
  unfold hswap
  by_cases hcj : c = j
  · rw [if_pos hcj, hcj, getD_set_self _ _ _ (by simpa using hj)]
  · rw [if_neg hcj, getD_set_ne _ _ _ _ (fun hh => hcj hh.symm)]
    by_cases hci : c = i
    · rw [if_pos hci, hci, getD_set_self _ _ _ hi]
    · rw [if_neg hci, getD_set_ne _ _ _ _ (fun hh => hci hh.symm)]

theorem mem_hswap (h : List ℕ) (i j x : ℕ) (hi : i < h.length) (hj : j < h.length) :
    x ∈ hswap h i j ↔ x ∈ h := by
  constructor
  · intro hx
    obtain ⟨c, hc, he⟩ := mem_getD _ _ hx
    rw [length_hswap] at hc
    rw [getD_hswap h i j c hi hj] at he
    split at he
    · rw [← he]; exact getD_mem _ _ hi
    · split at he
      · rw [← he]; exact getD_mem _ _ hj
      · rw [← he]; exact getD_mem _ _ hc
  · intro hx
    obtain ⟨c, hc, he⟩ := mem_getD _ _ hx
    by_cases hcj : c = j
    · have : (hswap h i j).getD i 0 = x := by
        rw [getD_hswap h i j i hi hj]
        by_cases hij : i = j
        · rw [if_pos hij, hij, ← hcj, he]
        · rw [if_neg hij, if_pos rfl, ← hcj, he]
      rw [← this]
      exact getD_mem _ _ (by rw [length_hswap]; exact hi)
    · by_cases hci : c = i
      · have : (hswap h i j).getD j 0 = x := by
          rw [getD_hswap h i j j hi hj, if_pos rfl, ← hci, he]
        rw [← this]
        exact getD_mem _ _ (by rw [length_hswap]; exact hj)
      · have : (hswap h i j).getD c 0 = x := by
          rw [getD_hswap h i j c hi hj, if_neg hcj, if_neg hci, he]
        rw [← this]
        exact getD_mem _ _ (by rw [length_hswap]; exact hc)

/-- The min-heap property by areas: every non-root entry is at least its
parent. -/
def HeapProp (k : ℕ → WithTop ℚ) (h : List ℕ) : Prop :=
  ∀ c, c < h.length → 0 < c → k (h.getD (hpar c) 0) ≤ k (h.getD c 0)

/-- Correct back-pointers: `item->index` is the item's heap position. -/
def IdxInv (h : List ℕ) (idx : ℕ → ℕ) : Prop :=
  ∀ c, c < h.length → idx (h.getD c 0) = c

theorem IdxInv.nodup {h : List ℕ} {idx : ℕ → ℕ} (hi : IdxInv h idx) : h.Nodup := by
  rw [List.nodup_iff_injective_get]
  intro a b hab
  have ha := hi a.1 a.2
  have hb := hi b.1 b.2
  rw [List.getD_eq_getElem _ _ a.2] at ha
  rw [List.getD_eq_getElem _ _ b.2] at hb
  have hv : a.1 = b.1 := by
    rw [← ha, ← hb]
    rw [List.get_eq_getElem, List.get_eq_getElem] at hab
    rw [hab]
  exact Fin.eq_of_val_eq hv

/-- The root of a heap is a minimum. -/
theorem heapRoot_min (k : ℕ → WithTop ℚ) (h : List ℕ) (hp : HeapProp k h) :
    ∀ c, c < h.length → k (h.getD 0 0) ≤ k (h.getD c 0) := by
  intro c
  induction c using Nat.strong_induction_on with
  | _ c ih =>
    intro hc
    rcases Nat.eq_zero_or_pos c with rfl | hpos
    · exact le_refl _
    · have hpc : hpar c < c := by unfold hpar; omega
      exact le_trans (ih (hpar c) hpc (lt_trans hpc hc)) (hp c hc hpos)

theorem heapRoot_min_mem (k : ℕ → WithTop ℚ) (h : List ℕ) (hp : HeapProp k h)
    (x : ℕ) (hx : x ∈ h) : k (h.getD 0 0) ≤ k x := by
  obtain ⟨c, hc, he⟩ := mem_getD _ _ hx
  rw [← he]
  exact heapRoot_min k h hp c hc

/-- Pre-condition of `up` sifting at `j`: the array is a heap except that
`h[j]` may be smaller than its parent, and `j`'s children dominate `j`'s
parent. -/
def UpInv (k : ℕ → WithTop ℚ) (h : List ℕ) (j : ℕ) : Prop :=
  (∀ c, c < h.length → 0 < c → c ≠ j → k (h.getD (hpar c) 0) ≤ k (h.getD c 0)) ∧
  (∀ c, c < h.length → hpar c = j → 0 < j → k (h.getD (hpar j) 0) ≤ k (h.getD c 0))

/-- Pre-condition of `down` sifting at `j`: the array is a heap except that
`h[j]` may exceed its children, and `j`'s children dominate `j`'s parent. -/
def DownInv (k : ℕ → WithTop ℚ) (h : List ℕ) (j : ℕ) : Prop :=
  (∀ c, c < h.length → 0 < c → hpar c ≠ j → k (h.getD (hpar c) 0) ≤ k (h.getD c 0)) ∧
  (∀ c, c < h.length → hpar c = j → 0 < j → k (h.getD (hpar j) 0) ≤ k (h.getD c 0))

/-- `minHeap::up`: bubble the item at `pos` towards the root by swapping
with its parent while the parent's area is larger, maintaining the
back-pointers. -/
def heapUp (k : ℕ → WithTop ℚ) : List ℕ → (ℕ → ℕ) → ℕ → List ℕ × (ℕ → ℕ)
  | h, idx, pos =>
    if hp : pos = 0 then (h, idx)
    else
      let p := hpar pos
      let A := h.getD p 0
      let B := h.getD pos 0
      if k A ≤ k B then (h, idx)
      else heapUp k (hswap h p pos)
        (fun x => if x = A then pos else if x = B then p else idx x) p
  termination_by _ _ pos => pos
  decreasing_by unfold hpar; omega

/-- The second comparison of `down`: prefer the right child when it beats
the best candidate so far. -/
def downTarget2 (k : ℕ → WithTop ℚ) (h : List ℕ) (pos d1 : ℕ) : ℕ :=
  if (pos + 1) * 2 < h.length ∧ k (h.getD ((pos + 1) * 2) 0) < k (h.getD d1 0) then
    (pos + 1) * 2
  else d1

/-- The position `down` descends to: the smaller of the two children when
it beats the current entry (left checked first, as in the source). -/
def downTarget (k : ℕ → WithTop ℚ) (h : List ℕ) (pos : ℕ) : ℕ :=
  downTarget2 k h pos
    (if (pos + 1) * 2 - 1 < h.length ∧
        k (h.getD ((pos + 1) * 2 - 1) 0) < k (h.getD pos 0) then
      (pos + 1) * 2 - 1
    else pos)

theorem downTarget_ne (k : ℕ → WithTop ℚ) (h : List ℕ) (pos : ℕ)
    (hne : downTarget k h pos ≠ pos) :
    pos < downTarget k h pos ∧ downTarget k h pos < h.length := by
  unfold downTarget downTarget2 at hne ⊢
  split_ifs at hne ⊢ <;> [skip; skip; skip; skip] <;> omega

/-- `minHeap::down`: sift the item at `pos` down by swapping with its
smallest smaller child, maintaining the back-pointers. -/
def heapDown (k : ℕ → WithTop ℚ) : List ℕ → (ℕ → ℕ) → ℕ → List ℕ × (ℕ → ℕ)
  | h, idx, pos =>
    let m := downTarget k h pos
    if hm : m = pos then (h, idx)
    else
      let A := h.getD pos 0
      let B := h.getD m 0
      heapDown k (hswap h pos m)
        (fun x => if x = B then pos else if x = A then m else idx x) m
  termination_by h _ pos => h.length - pos
  decreasing_by
    rw [length_hswap]
    have := downTarget_ne k h pos hm
    omega

theorem getD_hswap_fst (h : List ℕ) (i j : ℕ) (hi : i < h.length) (hj : j < h.length) :
    (hswap h i j).getD i 0 = h.getD j 0 := by
  rw [getD_hswap h i j i hi hj]
  by_cases hij : i = j
  · rw [if_pos hij, hij]
  · rw [if_neg hij, if_pos rfl]

theorem getD_hswap_snd (h : List ℕ) (i j : ℕ) (hi : i < h.length) (hj : j < h.length) :
    (hswap h i j).getD j 0 = h.getD i 0 := by
  rw [getD_hswap h i j j hi hj, if_pos rfl]

theorem getD_hswap_other (h : List ℕ) (i j c : ℕ) (hi : i < h.length) (hj : j < h.length)
    (hci : c ≠ i) (hcj : c ≠ j) : (hswap h i j).getD c 0 = h.getD c 0 := by
  rw [getD_hswap h i j c hi hj, if_neg hcj, if_neg hci]

/-- Swapping two distinct positions and redirecting the two back-pointers
preserves the back-pointer invariant. -/
theorem idxInv_swap (h : List ℕ) (idx g : ℕ → ℕ) (i j : ℕ)
    (hi : i < h.length) (hj : j < h.length) (hij : i ≠ j) (hInv : IdxInv h idx)
    (hg1 : g (h.getD i 0) = j) (hg2 : g (h.getD j 0) = i)
    (hg3 : ∀ x, x ≠ h.getD i 0 → x ≠ h.getD j 0 → g x = idx x) :
    IdxInv (hswap h i j) g := by
  have hAB : h.getD i 0 ≠ h.getD j 0 := by
    intro he
    apply hij
    rw [← hInv i hi, ← hInv j hj, he]
  intro c hc
  rw [length_hswap] at hc
  by_cases hcj : c = j
  · rw [hcj, getD_hswap_snd h i j hi hj, hg1]
  · by_cases hci : c = i
    · rw [hci, getD_hswap_fst h i j hi hj, hg2]
    · rw [getD_hswap_other h i j c hi hj hci hcj]
      have h1 : h.getD c 0 ≠ h.getD i 0 := by
        intro he
        apply hci
        rw [← hInv c hc, ← hInv i hi, he]
      have h2 : h.getD c 0 ≠ h.getD j 0 := by
        intro he
        apply hcj
        rw [← hInv c hc, ← hInv j hj, he]
      rw [hg3 _ h1 h2]
      exact hInv c hc

/-- The bubble-up swap moves the `up` pre-condition from `pos` to its
parent. -/
theorem upInv_swap (k : ℕ → WithTop ℚ) (h : List ℕ) (pos : ℕ)
    (hpos : pos ≠ 0) (hlen : pos < h.length) (hInv : UpInv k h pos)
    (hAB : ¬ k (h.getD (hpar pos) 0) ≤ k (h.getD pos 0)) :
    UpInv k (hswap h (hpar pos) pos) (hpar pos) := by
  have hp_lt : hpar pos < pos := by unfold hpar; omega
  have hp_len : hpar pos < h.length := lt_trans hp_lt hlen
  have hBA : k (h.getD pos 0) < k (h.getD (hpar pos) 0) := not_le.mp hAB
  constructor
  · intro c hc hc0 hcp
    rw [length_hswap] at hc
    by_cases hc_pos : c = pos
    · subst hc_pos
      rw [getD_hswap_snd h _ _ hp_len hlen]
      have : hpar c = hpar c := rfl
      rw [getD_hswap_fst h _ _ hp_len hlen]
      exact le_of_lt hBA
    · by_cases hpc_pos : hpar c = pos
      · rw [getD_hswap_other h _ _ c hp_len hlen hcp hc_pos]
        rw [hpc_pos, getD_hswap_snd h _ _ hp_len hlen]
        exact hInv.2 c hc hpc_pos (by omega)
      · by_cases hpc_p : hpar c = hpar pos
        · rw [getD_hswap_other h _ _ c hp_len hlen hcp hc_pos]
          rw [hpc_p, getD_hswap_fst h _ _ hp_len hlen]
          exact le_trans (le_of_lt hBA) (by rw [← hpc_p]; exact hInv.1 c hc hc0 hc_pos)
        · rw [getD_hswap_other h _ _ c hp_len hlen hcp hc_pos]
          rw [getD_hswap_other h _ _ (hpar c) hp_len hlen hpc_p hpc_pos]
          exact hInv.1 c hc hc0 hc_pos
  · intro c hc hpc hp0
    rw [length_hswap] at hc
    have hpp_lt : hpar (hpar pos) < hpar pos := by unfold hpar at *; omega
    have hpp_ne_p : hpar (hpar pos) ≠ hpar pos := ne_of_lt hpp_lt
    have hpp_ne_pos : hpar (hpar pos) ≠ pos := ne_of_lt (lt_trans hpp_lt hp_lt)
    rw [getD_hswap_other h _ _ (hpar (hpar pos)) hp_len hlen hpp_ne_p hpp_ne_pos]
    have hstep : k (h.getD (hpar (hpar pos)) 0) ≤ k (h.getD (hpar pos) 0) :=
      hInv.1 (hpar pos) hp_len (by omega) (ne_of_lt hp_lt)
    by_cases hc_pos : c = pos
    · subst hc_pos
      rw [getD_hswap_snd h _ _ hp_len hlen]
      exact hstep
    · have hc0 : 0 < c := by
        rcases Nat.eq_zero_or_pos c with rfl | hcp0
        · exfalso; unfold hpar at hpc hp0; omega
        · exact hcp0
      have hc_ne_p : c ≠ hpar pos := by
        have : hpar c < c := by unfold hpar; omega
        omega
      rw [getD_hswap_other h _ _ c hp_len hlen hc_ne_p hc_pos]
      refine le_trans hstep ?_
      have := hInv.1 c hc hc0 hc_pos
      rw [hpc] at this
      exact this

/-- Structured description of `downTarget`: either no child improves on
`pos`, or the target is a child strictly smaller than `pos` and no larger
than the other child. -/
theorem downTarget_cases (k : ℕ → WithTop ℚ) (h : List ℕ) (pos : ℕ) :
    (downTarget k h pos = pos ∧
      (∀ c, c < h.length → hpar c = pos → 0 < c →
        k (h.getD pos 0) ≤ k (h.getD c 0))) ∨
    (pos < downTarget k h pos ∧ downTarget k h pos < h.length ∧
      hpar (downTarget k h pos) = pos ∧
      k (h.getD (downTarget k h pos) 0) < k (h.getD pos 0) ∧
      (∀ c, c < h.length → hpar c = pos → 0 < c →
        k (h.getD (downTarget k h pos) 0) ≤ k (h.getD c 0))) := by
  have hchild : ∀ c, hpar c = pos → 0 < c →
      c = (pos + 1) * 2 - 1 ∨ c = (pos + 1) * 2 := by
    intro c hc hc0; unfold hpar at hc; omega
  unfold downTarget downTarget2
  by_cases h1 : (pos + 1) * 2 - 1 < h.length ∧
      k (h.getD ((pos + 1) * 2 - 1) 0) < k (h.getD pos 0)
  · rw [if_pos h1]
    by_cases h2 : (pos + 1) * 2 < h.length ∧
        k (h.getD ((pos + 1) * 2) 0) < k (h.getD ((pos + 1) * 2 - 1) 0)
    · rw [if_pos h2]
      refine Or.inr ⟨by omega, h2.1, by unfold hpar; omega, lt_trans h2.2 h1.2, ?_⟩
      intro c hc hpc hc0
      rcases hchild c hpc hc0 with rfl | rfl
      · exact le_of_lt h2.2
      · exact le_refl _
    · rw [if_neg h2]
      push_neg at h2
      refine Or.inr ⟨by omega, h1.1, by unfold hpar; omega, h1.2, ?_⟩
      intro c hc hpc hc0
      rcases hchild c hpc hc0 with rfl | rfl
      · exact le_refl _
      · exact h2 hc
  · rw [if_neg h1]
    push_neg at h1
    by_cases h2 : (pos + 1) * 2 < h.length ∧
        k (h.getD ((pos + 1) * 2) 0) < k (h.getD pos 0)
    · rw [if_pos h2]
      refine Or.inr ⟨by omega, h2.1, by unfold hpar; omega, h2.2, ?_⟩
      intro c hc hpc hc0
      rcases hchild c hpc hc0 with rfl | rfl
      · exact le_trans (le_of_lt h2.2) (h1 hc)
      · exact le_refl _
    · rw [if_neg h2]
      push_neg at h2
      refine Or.inl ⟨rfl, ?_⟩
      intro c hc hpc hc0
      rcases hchild c hpc hc0 with rfl | rfl
      · exact h1 hc
      · exact h2 hc

/-- The sift-down swap moves the `down` pre-condition from `pos` to the
chosen child. -/
theorem downInv_swap (k : ℕ → WithTop ℚ) (h : List ℕ) (pos : ℕ)
    (hlen : pos < h.length) (hInv : DownInv k h pos)
    (hne : downTarget k h pos ≠ pos) :
    DownInv k (hswap h pos (downTarget k h pos)) (downTarget k h pos) := by
  rcases downTarget_cases k h pos with ⟨he, -⟩ | ⟨hgt, hmlen, hpm, hlt, hmin⟩
  · exact absurd he hne
  set m := downTarget k h pos with hm
  constructor
  · intro c hc hc0 hpc_ne
    rw [length_hswap] at hc
    by_cases hcm : c = m
    · rw [hcm, getD_hswap_snd h pos m hlen hmlen, hpm,
        getD_hswap_fst h pos m hlen hmlen]
      exact le_of_lt hlt
    · by_cases hc_pos : c = pos
      · have hc0' : 0 < pos := by omega
        have hpp_ne_c : hpar pos ≠ pos := by
          have : hpar pos < pos := by unfold hpar; omega
          omega
        have hpp_ne_m : hpar pos ≠ m := by
          have : hpar pos < pos := by unfold hpar; omega
          omega
        rw [hc_pos, getD_hswap_fst h pos m hlen hmlen,
          getD_hswap_other h pos m (hpar pos) hlen hmlen hpp_ne_c hpp_ne_m]
        exact hInv.2 m hmlen hpm hc0'
      · by_cases hpc_pos : hpar c = pos
        · rw [getD_hswap_other h pos m c hlen hmlen hc_pos hcm, hpc_pos,
            getD_hswap_fst h pos m hlen hmlen]
          exact hmin c hc hpc_pos hc0
        · rw [getD_hswap_other h pos m c hlen hmlen hc_pos hcm,
            getD_hswap_other h pos m (hpar c) hlen hmlen hpc_pos hpc_ne]
          exact hInv.1 c hc hc0 hpc_pos
  · intro c hc hpc hm0
    rw [length_hswap] at hc
    have hc0 : 0 < c := by
      rcases Nat.eq_zero_or_pos c with rfl | hh
      · exfalso; unfold hpar at hpc; omega
      · exact hh
    have hcm_gt : m < c := by
      have : hpar c < c := by unfold hpar; omega
      omega
    have hc_ne_pos : c ≠ pos := by omega
    have hc_ne_m : c ≠ m := by omega
    rw [hpm, getD_hswap_fst h pos m hlen hmlen,
      getD_hswap_other h pos m c hlen hmlen hc_ne_pos hc_ne_m]
    have := hInv.1 c hc hc0 (by rw [hpc]; omega)
    rw [hpc] at this
    exact this

/-- Full correctness of `up`: given its pre-condition, the result is a
heap over the same entries with correct back-pointers. -/
theorem heapUp_spec (k : ℕ → WithTop ℚ) :
    ∀ pos h idx, pos < h.length → UpInv k h pos → IdxInv h idx →
      HeapProp k (heapUp k h idx pos).1 ∧
      (heapUp k h idx pos).1.length = h.length ∧
      (∀ x, x ∈ (heapUp k h idx pos).1 ↔ x ∈ h) ∧
      IdxInv (heapUp k h idx pos).1 (heapUp k h idx pos).2 := by
  intro pos
  induction pos using Nat.strong_induction_on with
  | _ pos ih =>
    intro h idx hlen hInv hIdx
    rw [heapUp]
    by_cases hp0 : pos = 0
    · rw [dif_pos hp0]
      refine ⟨?_, rfl, fun x => Iff.rfl, hIdx⟩
      intro c hc hc0
      exact hInv.1 c hc hc0 (by omega)
    · rw [dif_neg hp0]
      by_cases hAB : k (h.getD (hpar pos) 0) ≤ k (h.getD pos 0)
      · rw [if_pos hAB]
        refine ⟨?_, rfl, fun x => Iff.rfl, hIdx⟩
        intro c hc hc0
        by_cases hcp : c = pos
        · subst hcp; exact hAB
        · exact hInv.1 c hc hc0 hcp
      · rw [if_neg hAB]
        have hp_lt : hpar pos < pos := by unfold hpar; omega
        have hp_len : hpar pos < h.length := lt_trans hp_lt hlen
        have hABne : h.getD (hpar pos) 0 ≠ h.getD pos 0 := by
          intro he
          rw [he] at hAB
          exact hAB (le_refl _)
        have hrec := ih (hpar pos) hp_lt (hswap h (hpar pos) pos)
          (fun x => if x = h.getD (hpar pos) 0 then pos
            else if x = h.getD pos 0 then hpar pos else idx x)
          (by rw [length_hswap]; exact hp_len)
          (upInv_swap k h pos hp0 hlen hInv hAB)
          (idxInv_swap h idx _ (hpar pos) pos hp_len hlen (by omega) hIdx
            (by rw [if_pos rfl])
            (by rw [if_neg (fun hh => hABne hh.symm), if_pos rfl])
            (fun x hx1 hx2 => by rw [if_neg hx1, if_neg hx2]))
        refine ⟨hrec.1, ?_, ?_, hrec.2.2.2⟩
        · rw [hrec.2.1, length_hswap]
        · intro x
          rw [hrec.2.2.1 x, mem_hswap h _ _ x hp_len hlen]

/-- Full correctness of `down`. -/
theorem heapDown_spec (k : ℕ → WithTop ℚ) :
    ∀ n pos h idx, h.length - pos ≤ n → pos < h.length → DownInv k h pos →
      IdxInv h idx →
      HeapProp k (heapDown k h idx pos).1 ∧
      (heapDown k h idx pos).1.length = h.length ∧
      (∀ x, x ∈ (heapDown k h idx pos).1 ↔ x ∈ h) ∧
      IdxInv (heapDown k h idx pos).1 (heapDown k h idx pos).2 := by
  intro n
  induction n with
  | zero => intro pos h idx hn hlen _ _; omega
  | succ n ih =>
    intro pos h idx hn hlen hInv hIdx
    rw [heapDown]
    by_cases hm : downTarget k h pos = pos
    · rw [dif_pos hm]
      refine ⟨?_, rfl, fun x => Iff.rfl, hIdx⟩
      intro c hc hc0
      by_cases hpc : hpar c = pos
      · rcases downTarget_cases k h pos with ⟨-, hmin⟩ | ⟨hgt, -, -, -, -⟩
        · rw [hpc]; exact hmin c hc hpc hc0
        · omega
      · exact hInv.1 c hc hc0 hpc
    · rw [dif_neg hm]
      obtain ⟨hgt, hmlen⟩ := downTarget_ne k h pos hm
      have hABne : h.getD pos 0 ≠ h.getD (downTarget k h pos) 0 := by
        intro he
        have h1 := hIdx pos hlen
        have h2 := hIdx (downTarget k h pos) hmlen
        rw [he] at h1
        omega
      have hrec := ih (downTarget k h pos) (hswap h pos (downTarget k h pos))
        (fun x => if x = h.getD (downTarget k h pos) 0 then pos
          else if x = h.getD pos 0 then downTarget k h pos else idx x)
        (by rw [length_hswap]; omega)
        (by rw [length_hswap]; exact hmlen)
        (downInv_swap k h pos hlen hInv hm)
        (idxInv_swap h idx _ pos (downTarget k h pos) hlen hmlen (by omega) hIdx
          (by rw [if_neg (fun hh => hABne hh), if_pos rfl])
          (by rw [if_pos rfl])
          (fun x hx1 hx2 => by rw [if_neg hx2, if_neg hx1]))
      refine ⟨hrec.1, ?_, ?_, hrec.2.2.2⟩
      · rw [hrec.2.1, length_hswap]
      · intro x
        rw [hrec.2.2.1 x, mem_hswap h _ _ x hlen hmlen]

/-- The `visvalingam` item state: per-vertex triangle `area`, the
doubly-linked list `next`/`prev` over surviving vertices, the heap array
`h` and the per-item heap back-pointer `index`. -/
structure VisState where
  area : ℕ → WithTop ℚ
  nxt : ℕ → Option ℕ
  prv : ℕ → Option ℕ
  heap : List ℕ
  idx : ℕ → ℕ

/-- `minHeap::Push`: append at the end and bubble up. -/
def vPush (st : VisState) (i : ℕ) : VisState :=
  let r := heapUp st.area (st.heap ++ [i])
    (fun x => if x = i then st.heap.length else st.idx x) st.heap.length
  { st with heap := r.1, idx := r.2 }

/-- `minHeap::Pop`: remove the root, move the last entry to the root and
sift it down. -/
def vPop (st : VisState) : ℕ × VisState :=
  let removed := st.heap.headD 0
  let last := st.heap.getLastD 0
  let h1 := st.heap.dropLast
  if h1.length = 0 then (removed, { st with heap := h1 })
  else
    let r := heapDown st.area (h1.set 0 last)
      (fun x => if x = last then 0 else st.idx x) 0
    (removed, { st with heap := r.1, idx := r.2 })

/-- `minHeap::Update`: assign the new area and sift up when it shrank,
down otherwise. -/
def vUpdate (st : VisState) (i : ℕ) (a : WithTop ℚ) : VisState :=
  if a < st.area i then
    let r := heapUp (fun x => if x = i then a else st.area x) st.heap st.idx (st.idx i)
    { st with area := fun x => if x = i then a else st.area x, heap := r.1, idx := r.2 }
  else
    let r := heapDown (fun x => if x = i then a else st.area x) st.heap st.idx (st.idx i)
    { st with area := fun x => if x = i then a else st.area x, heap := r.1, idx := r.2 }

theorem getD_append_lt (l l' : List ℕ) (c : ℕ) (h : c < l.length) :
    (l ++ l').getD c 0 = l.getD c 0 := by
  rw [List.getD_eq_getElem _ _ (by rw [List.length_append]; omega),
    List.getD_eq_getElem _ _ h, List.getElem_append_left]

theorem getD_concat_self (l : List ℕ) (a : ℕ) : (l ++ [a]).getD l.length 0 = a := by
  rw [List.getD_eq_getElem _ _ (by rw [List.length_append]; simp)]
  simp

theorem vPush_spec (st : VisState) (i : ℕ)
    (hh : HeapProp st.area st.heap) (hix : IdxInv st.heap st.idx)
    (hni : i ∉ st.heap) :
    HeapProp (vPush st i).area (vPush st i).heap ∧
    IdxInv (vPush st i).heap (vPush st i).idx ∧
    (∀ x, x ∈ (vPush st i).heap ↔ x ∈ st.heap ∨ x = i) ∧
    (vPush st i).area = st.area ∧ (vPush st i).nxt = st.nxt ∧
    (vPush st i).prv = st.prv ∧
    (vPush st i).heap.length = st.heap.length + 1 := by
  have hlen : st.heap.length < (st.heap ++ [i]).length := by
    rw [List.length_append]; simp
  have hUp : UpInv st.area (st.heap ++ [i]) st.heap.length := by
    constructor
    · intro c hc hc0 hcp
      rw [List.length_append, List.length_singleton] at hc
      have hclt : c < st.heap.length := by omega
      have hpclt : hpar c < st.heap.length := by
        have : hpar c < c := by unfold hpar; omega
        omega
      rw [getD_append_lt _ _ _ hclt, getD_append_lt _ _ _ hpclt]
      exact hh c hclt hc0
    · intro c hc hpc _
      exfalso
      have : hpar c < c := by
        have hc0 : 0 < c := by
          rcases Nat.eq_zero_or_pos c with rfl | hcc
          · unfold hpar at hpc
            simp at hpc
            rw [List.length_append, List.length_singleton] at hc
            omega
          · exact hcc
        unfold hpar; omega
      rw [List.length_append, List.length_singleton] at hc
      omega
  have hIx : IdxInv (st.heap ++ [i])
      (fun x => if x = i then st.heap.length else st.idx x) := by
    intro c hc
    rw [List.length_append, List.length_singleton] at hc
    by_cases hcl : c = st.heap.length
    · rw [hcl, getD_concat_self]
      simp
    · have hclt : c < st.heap.length := by omega
      rw [getD_append_lt _ _ _ hclt]
      have : st.heap.getD c 0 ≠ i := fun he => hni (he ▸ getD_mem _ _ hclt)
      simp only [this, if_false]
      exact hix c hclt
  have hs := heapUp_spec st.area st.heap.length (st.heap ++ [i])
    (fun x => if x = i then st.heap.length else st.idx x) hlen hUp hIx
  refine ⟨hs.1, hs.2.2.2, ?_, rfl, rfl, rfl, ?_⟩
  · intro x
    rw [show (vPush st i).heap = (heapUp st.area (st.heap ++ [i])
      (fun x => if x = i then st.heap.length else st.idx x) st.heap.length).1 from rfl]
    rw [hs.2.2.1 x, List.mem_append, List.mem_singleton]
  · rw [show (vPush st i).heap = (heapUp st.area (st.heap ++ [i])
      (fun x => if x = i then st.heap.length else st.idx x) st.heap.length).1 from rfl]
    rw [hs.2.1, List.length_append, List.length_singleton]

theorem IdxInv.getD_inj {h : List ℕ} {idx : ℕ → ℕ} (hix : IdxInv h idx)
    {c c' : ℕ} (hc : c < h.length) (hc' : c' < h.length)
    (he : h.getD c 0 = h.getD c' 0) : c = c' := by
  have h1 := hix c hc
  have h2 := hix c' hc'
  rw [he] at h1
  exact h1.symm.trans h2

theorem headD_eq_getD (l : List ℕ) (h : l ≠ []) : l.headD 0 = l.getD 0 0 := by
  cases l with
  | nil => exact absurd rfl h
  | cons a t => rfl

theorem getLastD_eq_getD (l : List ℕ) (h : l ≠ []) :
    l.getLastD 0 = l.getD (l.length - 1) 0 := by
  rw [List.getLastD_eq_getLast?, List.getLast?_eq_getLast _ h]
  rw [List.getLast_eq_getElem, List.getD_eq_getElem _ _ (by
    have := List.length_pos.mpr h
    omega)]
  rfl

theorem getD_dropLast (l : List ℕ) (c : ℕ) (h : c < l.dropLast.length) :
    l.dropLast.getD c 0 = l.getD c 0 := by
  rw [List.getD_eq_getElem _ _ h, List.getD_eq_getElem _ _ (by
    rw [List.length_dropLast] at h; omega)]
  exact List.getElem_dropLast l c h

theorem vPop_spec (st : VisState) (hne : st.heap ≠ [])
    (hh : HeapProp st.area st.heap) (hix : IdxInv st.heap st.idx) :
    (vPop st).1 = st.heap.getD 0 0 ∧
    HeapProp st.area (vPop st).2.heap ∧
    IdxInv (vPop st).2.heap (vPop st).2.idx ∧
    (∀ x, x ∈ (vPop st).2.heap ↔ x ∈ st.heap ∧ x ≠ st.heap.getD 0 0) ∧
    (vPop st).2.area = st.area ∧ (vPop st).2.nxt = st.nxt ∧
    (vPop st).2.prv = st.prv ∧
    (vPop st).2.heap.length + 1 = st.heap.length := by
  have hn1 : 1 ≤ st.heap.length := List.length_pos.mpr hne
  have hD : st.heap.dropLast.length = st.heap.length - 1 := List.length_dropLast _
  by_cases hone : st.heap.dropLast.length = 0
  · have hres : vPop st = (st.heap.headD 0, { st with heap := st.heap.dropLast }) := by
      unfold vPop
      rw [if_pos hone]
    rw [hres]
    have hn : st.heap.length = 1 := by omega
    refine ⟨headD_eq_getD _ hne, ?_, ?_, ?_, rfl, rfl, rfl, by
      simp only []
      omega⟩
    · intro c hc _
      rw [hone] at hc
      omega
    · intro c hc
      rw [hone] at hc
      omega
    · intro x
      simp only []
      constructor
      · intro hx
        exfalso
        obtain ⟨c, hc, -⟩ := mem_getD _ _ hx
        omega
      · rintro ⟨hx, hxr⟩
        obtain ⟨c, hc, he⟩ := mem_getD _ _ hx
        have : c = 0 := by omega
        rw [this] at he
        exact absurd he.symm hxr
  · have hn2 : 2 ≤ st.heap.length := by omega
    have hset_len : (st.heap.dropLast.set 0 (st.heap.getLastD 0)).length =
        st.heap.length - 1 := by rw [List.length_set, hD]
    have hlast : st.heap.getLastD 0 = st.heap.getD (st.heap.length - 1) 0 :=
      getLastD_eq_getD _ hne
    have hget2 : ∀ c, 0 < c → c < st.heap.length - 1 →
        (st.heap.dropLast.set 0 (st.heap.getLastD 0)).getD c 0 = st.heap.getD c 0 := by
      intro c hc0 hc
      rw [getD_set_ne _ _ _ _ (by omega), getD_dropLast _ _ (by omega)]
    have hget0 : (st.heap.dropLast.set 0 (st.heap.getLastD 0)).getD 0 0 =
        st.heap.getD (st.heap.length - 1) 0 := by
      rw [getD_set_self _ _ _ (by omega), hlast]
    have hDown : DownInv st.area (st.heap.dropLast.set 0 (st.heap.getLastD 0)) 0 := by
      constructor
      · intro c hc hc0 hpc
        rw [hset_len] at hc
        have hpc0 : 0 < hpar c := Nat.pos_of_ne_zero hpc
        have hpclt : hpar c < c := by unfold hpar; omega
        rw [hget2 c hc0 hc, hget2 (hpar c) hpc0 (by omega)]
        exact hh c (by omega) hc0
      · intro c hc hpc hj
        omega
    have hIx2 : IdxInv (st.heap.dropLast.set 0 (st.heap.getLastD 0))
        (fun x => if x = st.heap.getLastD 0 then 0 else st.idx x) := by
      intro c hc
      rw [hset_len] at hc
      rcases Nat.eq_zero_or_pos c with rfl | hc0
      · rw [getD_set_self _ _ _ (by omega)]
        simp
      · rw [hget2 c hc0 hc]
        have hneq : st.heap.getD c 0 ≠ st.heap.getLastD 0 := by
          rw [hlast]
          intro he
          have := hix.getD_inj (by omega) (by omega) he
          omega
        simp only [hneq, if_false]
        exact hix c (by omega)
    have hs := heapDown_spec st.area ((st.heap.dropLast.set 0 (st.heap.getLastD 0)).length)
      0 (st.heap.dropLast.set 0 (st.heap.getLastD 0))
      (fun x => if x = st.heap.getLastD 0 then 0 else st.idx x)
      (by omega) (by rw [hset_len]; omega) hDown hIx2
    have hres : vPop st = (st.heap.headD 0,
        { st with
          heap := (heapDown st.area (st.heap.dropLast.set 0 (st.heap.getLastD 0))
            (fun x => if x = st.heap.getLastD 0 then 0 else st.idx x) 0).1
          idx := (heapDown st.area (st.heap.dropLast.set 0 (st.heap.getLastD 0))
            (fun x => if x = st.heap.getLastD 0 then 0 else st.idx x) 0).2 }) := by
      unfold vPop
      rw [if_neg hone]
    rw [hres]
    have hmem2 : ∀ x, x ∈ st.heap.dropLast.set 0 (st.heap.getLastD 0) ↔
        (x ∈ st.heap ∧ x ≠ st.heap.getD 0 0) := by
      intro x
      constructor
      · intro hx
        obtain ⟨c, hc, he⟩ := mem_getD _ _ hx
        rw [hset_len] at hc
        rcases Nat.eq_zero_or_pos c with rfl | hc0
        · rw [hget0] at he
          constructor
          · rw [← he]; exact getD_mem _ _ (by omega)
          · rw [← he]
            intro hcon
            have := hix.getD_inj (by omega) (by omega) hcon
            omega
        · rw [hget2 c hc0 hc] at he
          constructor
          · rw [← he]; exact getD_mem _ _ (by omega)
          · rw [← he]
            intro hcon
            have := hix.getD_inj (by omega) (by omega) hcon
            omega
      · rintro ⟨hx, hxr⟩
        obtain ⟨c, hc, he⟩ := mem_getD _ _ hx
        have hc0 : 0 < c := by
          rcases Nat.eq_zero_or_pos c with rfl | hcc
          · exact absurd he.symm hxr
          · exact hcc
        by_cases hcl : c = st.heap.length - 1
        · have hx0 : (st.heap.dropLast.set 0 (st.heap.getLastD 0)).getD 0 0 = x := by
            rw [hget0, ← hcl, he]
          rw [← hx0]
          exact getD_mem _ _ (by rw [hset_len]; omega)
        · rw [← he, ← hget2 c hc0 (by omega)]
          exact getD_mem _ _ (by rw [hset_len]; omega)
    refine ⟨headD_eq_getD _ hne, hs.1, hs.2.2.2, ?_, rfl, rfl, rfl, ?_⟩
    · intro x
      simp only []
      rw [hs.2.2.1 x, hmem2 x]
    · simp only []
      rw [hs.2.1, hset_len]
      omega

theorem vUpdate_spec (st : VisState) (i : ℕ) (a : WithTop ℚ)
    (hh : HeapProp st.area st.heap) (hix : IdxInv st.heap st.idx)
    (hmem : i ∈ st.heap) :
    HeapProp (vUpdate st i a).area (vUpdate st i a).heap ∧
    IdxInv (vUpdate st i a).heap (vUpdate st i a).idx ∧
    (∀ x, x ∈ (vUpdate st i a).heap ↔ x ∈ st.heap) ∧
    (vUpdate st i a).area = (fun x => if x = i then a else st.area x) ∧
    (vUpdate st i a).nxt = st.nxt ∧ (vUpdate st i a).prv = st.prv ∧
    (vUpdate st i a).heap.length = st.heap.length := by
  obtain ⟨pos, hpos, hpe⟩ := mem_getD _ _ hmem
  have hidx : st.idx i = pos := by rw [← hpe]; exact hix pos hpos
  have hother : ∀ c, c < st.heap.length → c ≠ pos → st.heap.getD c 0 ≠ i := by
    intro c hc hcp he
    exact hcp (hix.getD_inj hc hpos (he.trans hpe.symm))
  have hkother : ∀ c, c < st.heap.length → c ≠ pos →
      (fun x => if x = i then a else st.area x) (st.heap.getD c 0) =
        st.area (st.heap.getD c 0) := by
    intro c hc hcp
    simp only [hother c hc hcp, if_false]
  have hkpos : (fun x => if x = i then a else st.area x) (st.heap.getD pos 0) = a := by
    rw [hpe]; simp
  have hparpos_lt : ∀ c : ℕ, 0 < c → hpar c < c := by
    intro c hc; unfold hpar; omega
  by_cases hcmp : a < st.area i
  · have hres : vUpdate st i a =
        { st with
          area := fun x => if x = i then a else st.area x
          heap := (heapUp (fun x => if x = i then a else st.area x)
            st.heap st.idx (st.idx i)).1
          idx := (heapUp (fun x => if x = i then a else st.area x)
            st.heap st.idx (st.idx i)).2 } := by
      unfold vUpdate
      rw [if_pos hcmp]
    have hUp : UpInv (fun x => if x = i then a else st.area x) st.heap pos := by
      constructor
      · intro c hc hc0 hcp
        by_cases hpc : hpar c = pos
        · rw [hpc, hkpos, hkother c hc hcp]
          refine le_trans (le_of_lt hcmp) ?_
          rw [← hpe] at hcmp ⊢
          exact le_trans (le_refl _) (by rw [← hpc]; exact hh c hc hc0)
        · rw [hkother c hc hcp, hkother (hpar c) (by
            have := hparpos_lt c hc0; omega) hpc]
          exact hh c hc hc0
      · intro c hc hpc hj
        have hc0 : 0 < c := by
          rcases Nat.eq_zero_or_pos c with rfl | hcc
          · exfalso; unfold hpar at hpc; omega
          · exact hcc
        have hcp : c ≠ pos := by
          have := hparpos_lt c hc0; omega
        have hpp : hpar pos ≠ pos := by
          have := hparpos_lt pos hj; omega
        rw [hkother c hc hcp, hkother (hpar pos) (by
          have := hparpos_lt pos hj; omega) hpp]
        refine le_trans (hh pos hpos hj) ?_
        rw [← hpc]
        exact hh c hc hc0
    have hs := heapUp_spec (fun x => if x = i then a else st.area x) pos st.heap st.idx
      hpos hUp hix
    rw [hidx] at hres
    rw [hres]
    exact ⟨hs.1, hs.2.2.2, fun x => hs.2.2.1 x, rfl, rfl, rfl, hs.2.1⟩
  · have hres : vUpdate st i a =
        { st with
          area := fun x => if x = i then a else st.area x
          heap := (heapDown (fun x => if x = i then a else st.area x)
            st.heap st.idx (st.idx i)).1
          idx := (heapDown (fun x => if x = i then a else st.area x)
            st.heap st.idx (st.idx i)).2 } := by
      unfold vUpdate
      rw [if_neg hcmp]
    have hDown : DownInv (fun x => if x = i then a else st.area x) st.heap pos := by
      constructor
      · intro c hc hc0 hpc
        by_cases hcp : c = pos
        · rw [hcp, hkpos, hkother (hpar pos) (by
            rw [← hcp]; have := hparpos_lt c hc0; omega) (by
            rw [hcp] at hc0
            have := hparpos_lt pos hc0; omega)]
          refine le_trans ?_ (le_of_not_lt (by rw [← hpe] at hcmp; exact hcmp))
          rw [hcp] at hc0
          exact hh pos hpos hc0
        · rw [hkother c hc hcp, hkother (hpar c) (by
            have := hparpos_lt c hc0; omega) hpc]
          exact hh c hc hc0
      · intro c hc hpc hj
        have hc0 : 0 < c := by
          rcases Nat.eq_zero_or_pos c with rfl | hcc
          · exfalso; unfold hpar at hpc; omega
          · exact hcc
        have hcp : c ≠ pos := by
          have := hparpos_lt c hc0; omega
        have hpp : hpar pos ≠ pos := by
          have := hparpos_lt pos hj; omega
        rw [hkother c hc hcp, hkother (hpar pos) (by
          have := hparpos_lt pos hj; omega) hpp]
        refine le_trans (hh pos hpos hj) ?_
        rw [← hpc]
        exact hh c hc hc0
    have hs := heapDown_spec (fun x => if x = i then a else st.area x)
      st.heap.length pos st.heap st.idx (by omega) hpos hDown hix
    rw [hidx] at hres
    rw [hres]
    exact ⟨hs.1, hs.2.2.2, fun x => hs.2.2.1 x, rfl, rfl, rfl, hs.2.1⟩

/-- `doubleTriangleArea` from `src/tilebuilder.h`: twice the area of the
triangle on points `i1, i2, i3`. -/
def doubleTriangleArea (pts : List Pt) (i1 i2 i3 : ℕ) : ℚ :=
  let a := pts.getD i1 default
  let b := pts.getD i2 default
  let c := pts.getD i3 default
  |(b.x - a.x) * (c.y - a.y) - (b.y - a.y) * (c.x - a.x)|

/-- The setup phase of `visvalingam`: endpoint items carry `INFINITY`,
interior items the doubled triangle area of their neighbours; the items
are linked `0 → 1 → ⋯ → n−1` and pushed in index order. -/
def visInit (pts : List Pt) : VisState :=
  (List.range pts.length).foldl vPush
    { area := fun i => if i = 0 ∨ i = pts.length - 1 then ⊤
        else ((doubleTriangleArea pts (i - 1) i (i + 1) : ℚ) : WithTop ℚ)
      nxt := fun i => if i + 1 < pts.length then some (i + 1) else none
      prv := fun i => if i = 0 then none else some (i - 1)
      heap := []
      idx := fun _ => 0 }

/-- The list unlinking of the removed vertex:
`prev->next = current->next; next->prev = current->prev`. -/
def visUnlink (st1 : VisState) (p nx : ℕ) : VisState :=
  { st1 with
    nxt := fun j => if j = p then some nx else st1.nxt j
    prv := fun j => if j = nx then some p else st1.prv j }

/-- The second neighbour update (`next->next != NULL` guard): recompute
`next`'s triangle over `(prev, next, next->next)`, clamped to at least the
removed vertex's area. -/
def visStep3 (pts : List Pt) (curArea : WithTop ℚ) (p nx : ℕ) (st3 : VisState) : VisState :=
  match st3.nxt nx with
  | some nn =>
    vUpdate st3 nx (max ((doubleTriangleArea pts p nx nn : ℚ) : WithTop ℚ) curArea)
  | none => st3

/-- The first neighbour update (`prev->prev != NULL` guard): recompute
`prev`'s triangle over `(prev->prev, prev, next)`, clamped to at least the
removed vertex's area. -/
def visStep2 (pts : List Pt) (curArea : WithTop ℚ) (p nx : ℕ) (st2 : VisState) : VisState :=
  visStep3 pts curArea p nx
    (match st2.prv p with
     | some pp =>
       vUpdate st2 p (max ((doubleTriangleArea pts pp p nx : ℚ) : WithTop ℚ) curArea)
     | none => st2)

/-- One removal step of the reduction loop, after the pop: unlink the
removed vertex and update its two neighbours. -/
def visStep (pts : List Pt) (st : VisState) (cur p nx : ℕ) : VisState :=
  visStep2 pts (st.area cur) p nx (visUnlink (vPop st).2 p nx)

/-- The reduction loop of `visvalingam`, instrumented to record the
vertices it removes together with their effective area at removal time.
Pop the minimum; stop when its (possibly clamped) area exceeds the doubled
threshold; otherwise unlink it and `Update` each surviving interior
neighbour with its recomputed triangle area clamped to be no less than the
removed vertex's area.  The fuel is the heap size, which strictly shrinks
with each pop. -/
def visLoop (pts : List Pt) (t2 : ℚ) :
    ℕ → VisState → List (ℕ × WithTop ℚ) → List (ℕ × WithTop ℚ) × VisState
  | 0, st, acc => (acc, st)
  | fuel + 1, st, acc =>
    if st.heap = [] then (acc, st)
    else if (t2 : WithTop ℚ) < st.area (vPop st).1 then (acc, (vPop st).2)
    else
      match st.prv (vPop st).1, st.nxt (vPop st).1 with
      | some p, some nx =>
        visLoop pts t2 fuel (visStep pts st (vPop st).1 p nx)
          (acc ++ [((vPop st).1, st.area (vPop st).1)])
      | _, _ => (acc, (vPop st).2)

/-- The vertices `visvalingam(pts, thresh)` removes from the min-heap (and
unlinks from the polyline), in order of removal, with their effective
areas.  The source multiplies the threshold by two before the loop. -/
def visRemoved (pts : List Pt) (thresh : ℚ) : List (ℕ × WithTop ℚ) :=
  if thresh ≤ 0 ∨ pts.length < 3 then []
  else (visLoop pts (2 * thresh) (visInit pts).heap.length (visInit pts) []).1

/-- The final linked-list walk producing the keep mask of `visvalingam`. -/
def visWalk (st : VisState) : ℕ → ℕ → List ℕ
  | 0, _ => []
  | fuel + 1, i =>
    i :: (match st.nxt i with
          | none => []
          | some j => visWalk st fuel j)

/-- `visvalingam` itself: the list of surviving vertex indices (the `keep`
mask), empty when the size/threshold guard fires (meaning keep all). -/
def visvalingamKeep (pts : List Pt) (thresh : ℚ) : List ℕ :=
  if thresh ≤ 0 ∨ pts.length < 3 then []
  else visWalk (visLoop pts (2 * thresh) (visInit pts).heap.length (visInit pts) []).2
    pts.length 0

theorem length_eraseIdx_lt (l : List ℕ) (i : ℕ) (hi : i < l.length) :
    (l.eraseIdx i).length = l.length - 1 := by
  rw [List.length_eraseIdx]
  simp [hi]

theorem getD_eraseIdx_lt (l : List ℕ) (i j : ℕ) (hi : i < l.length) (hj : j < i) :
    (l.eraseIdx i).getD j 0 = l.getD j 0 := by
  have h1 : j < (l.eraseIdx i).length := by rw [length_eraseIdx_lt l i hi]; omega
  rw [List.getD_eq_getElem _ _ h1, List.getD_eq_getElem _ _ (by omega)]
  exact List.getElem_eraseIdx_of_lt l i j h1 hj

theorem getD_eraseIdx_ge (l : List ℕ) (i j : ℕ) (hij : i ≤ j) (hj : j + 1 < l.length) :
    (l.eraseIdx i).getD j 0 = l.getD (j + 1) 0 := by
  have h1 : j < (l.eraseIdx i).length := by rw [length_eraseIdx_lt l i (by omega)]; omega
  rw [List.getD_eq_getElem _ _ h1, List.getD_eq_getElem _ _ hj]
  exact List.getElem_eraseIdx_of_ge l i j h1 hij

theorem nodup_getD_inj (l : List ℕ) (hnd : l.Nodup) {c c' : ℕ}
    (hc : c < l.length) (hc' : c' < l.length)
    (he : l.getD c 0 = l.getD c' 0) : c = c' := by
  rw [List.getD_eq_getElem _ _ hc, List.getD_eq_getElem _ _ hc'] at he
  exact (List.Nodup.getElem_inj_iff hnd).mp he

theorem mem_eraseIdx_nodup (l : List ℕ) (hnd : l.Nodup) (i : ℕ) (hi : i < l.length)
    (x : ℕ) : x ∈ l.eraseIdx i ↔ x ∈ l ∧ x ≠ l.getD i 0 := by
  constructor
  · intro hx
    obtain ⟨j, hj, hje⟩ := mem_getD _ _ hx
    rw [length_eraseIdx_lt l i hi] at hj
    rcases Nat.lt_or_ge j i with hlt | hge
    · rw [getD_eraseIdx_lt l i j hi hlt] at hje
      refine ⟨hje ▸ getD_mem _ _ (by omega), ?_⟩
      rw [← hje]
      intro hcon
      have := nodup_getD_inj l hnd (by omega) hi hcon
      omega
    · rw [getD_eraseIdx_ge l i j hge (by omega)] at hje
      refine ⟨hje ▸ getD_mem _ _ (by omega), ?_⟩
      rw [← hje]
      intro hcon
      have := nodup_getD_inj l hnd (by omega) hi hcon
      omega
  · rintro ⟨hx, hxne⟩
    obtain ⟨j, hj, hje⟩ := mem_getD _ _ hx
    have hjne : j ≠ i := fun hcon => hxne (by rw [← hje, hcon])
    rcases Nat.lt_or_ge j i with hlt | hge
    · rw [← hje, ← getD_eraseIdx_lt l i j hi hlt]
      exact getD_mem _ _ (by rw [length_eraseIdx_lt l i hi]; omega)
    · have hgt : i < j := by omega
      have hj1 : j - 1 + 1 = j := by omega
      rw [← hje, ← hj1, ← getD_eraseIdx_ge l i (j - 1) (by omega) (by omega)]
      exact getD_mem _ _ (by rw [length_eraseIdx_lt l i hi]; omega)

theorem getD_range (n i : ℕ) (h : i < n) : (List.range n).getD i 0 = i := by
  rw [List.getD_eq_getElem _ _ (by simpa using h)]
  simp

/-- The surviving-polyline invariant of the `visvalingam` reduction loop:
`L` lists the surviving vertex indices in polyline order, the heap holds
exactly the members of `L`, `next`/`prev` link consecutive members of `L`,
and the two endpoint vertices carry area `INFINITY` (`⊤`). -/
def VisChain (st : VisState) (L : List ℕ) : Prop :=
  (∀ x, x ∈ st.heap ↔ x ∈ L) ∧
  (∀ i, i + 1 < L.length → st.nxt (L.getD i 0) = some (L.getD (i + 1) 0)) ∧
  st.nxt (L.getD (L.length - 1) 0) = none ∧
  (∀ i, i + 1 < L.length → st.prv (L.getD (i + 1) 0) = some (L.getD i 0)) ∧
  st.prv (L.getD 0 0) = none ∧
  2 ≤ L.length ∧ L.Nodup ∧
  st.area (L.getD 0 0) = ⊤ ∧ st.area (L.getD (L.length - 1) 0) = ⊤

theorem visStep3_spec (pts : List Pt) (ca : WithTop ℚ) (p nx : ℕ) (st3 : VisState)
    (hh : HeapProp st3.area st3.heap) (hix : IdxInv st3.heap st3.idx)
    (hnxmem : nx ∈ st3.heap) :
    HeapProp (visStep3 pts ca p nx st3).area (visStep3 pts ca p nx st3).heap ∧
    IdxInv (visStep3 pts ca p nx st3).heap (visStep3 pts ca p nx st3).idx ∧
    (∀ x, x ∈ (visStep3 pts ca p nx st3).heap ↔ x ∈ st3.heap) ∧
    (∀ x, x ≠ nx → (visStep3 pts ca p nx st3).area x = st3.area x) ∧
    ((visStep3 pts ca p nx st3).area nx = st3.area nx ∨
      ca ≤ (visStep3 pts ca p nx st3).area nx) ∧
    (st3.nxt nx = none → (visStep3 pts ca p nx st3).area nx = st3.area nx) ∧
    (visStep3 pts ca p nx st3).nxt = st3.nxt ∧
    (visStep3 pts ca p nx st3).prv = st3.prv := by
  rcases hsc : st3.nxt nx with _ | nn
  · have e : visStep3 pts ca p nx st3 = st3 := by
      unfold visStep3
      rw [hsc]
    rw [e]
    exact ⟨hh, hix, fun x => Iff.rfl, fun x _ => rfl, Or.inl rfl, fun _ => rfl, rfl, rfl⟩
  · have e : visStep3 pts ca p nx st3 =
        vUpdate st3 nx (max ((doubleTriangleArea pts p nx nn : ℚ) : WithTop ℚ) ca) := by
      unfold visStep3
      rw [hsc]
    have hU := vUpdate_spec st3 nx
      (max ((doubleTriangleArea pts p nx nn : ℚ) : WithTop ℚ) ca) hh hix hnxmem
    rw [e]
    refine ⟨hU.1, hU.2.1, hU.2.2.1, ?_, ?_, ?_, hU.2.2.2.2.1, hU.2.2.2.2.2.1⟩
    · intro x hx
      simp only [hU.2.2.2.1]
      rw [if_neg hx]
    · right
      simp only [hU.2.2.2.1, if_true]
      exact le_sup_right
    · intro hcon
      exact Option.noConfusion hcon

theorem visStep2_spec (pts : List Pt) (ca : WithTop ℚ) (p nx : ℕ) (st2 : VisState)
    (hh : HeapProp st2.area st2.heap) (hix : IdxInv st2.heap st2.idx)
    (hpmem : p ∈ st2.heap) (hnxmem : nx ∈ st2.heap) (hpnx : p ≠ nx) :
    HeapProp (visStep2 pts ca p nx st2).area (visStep2 pts ca p nx st2).heap ∧
    IdxInv (visStep2 pts ca p nx st2).heap (visStep2 pts ca p nx st2).idx ∧
    (∀ x, x ∈ (visStep2 pts ca p nx st2).heap ↔ x ∈ st2.heap) ∧
    (∀ x, x ≠ p → x ≠ nx → (visStep2 pts ca p nx st2).area x = st2.area x) ∧
    (∀ x, (visStep2 pts ca p nx st2).area x = st2.area x ∨
      ca ≤ (visStep2 pts ca p nx st2).area x) ∧
    (st2.prv p = none → (visStep2 pts ca p nx st2).area p = st2.area p) ∧
    (st2.nxt nx = none → (visStep2 pts ca p nx st2).area nx = st2.area nx) ∧
    (visStep2 pts ca p nx st2).nxt = st2.nxt ∧
    (visStep2 pts ca p nx st2).prv = st2.prv := by
  rcases hsc : st2.prv p with _ | pp
  · have e : visStep2 pts ca p nx st2 = visStep3 pts ca p nx st2 := by
      unfold visStep2
      rw [hsc]
    have h3 := visStep3_spec pts ca p nx st2 hh hix hnxmem
    rw [e]
    refine ⟨h3.1, h3.2.1, h3.2.2.1, fun x _ hx => h3.2.2.2.1 x hx, ?_,
      fun _ => h3.2.2.2.1 p hpnx, h3.2.2.2.2.2.1, h3.2.2.2.2.2.2.1, h3.2.2.2.2.2.2.2⟩
    intro x
    by_cases hx : x = nx
    · subst hx
      exact h3.2.2.2.2.1
    · exact Or.inl (h3.2.2.2.1 x hx)
  · have e : visStep2 pts ca p nx st2 = visStep3 pts ca p nx
        (vUpdate st2 p (max ((doubleTriangleArea pts pp p nx : ℚ) : WithTop ℚ) ca)) := by
      unfold visStep2
      rw [hsc]
    have hU := vUpdate_spec st2 p
      (max ((doubleTriangleArea pts pp p nx : ℚ) : WithTop ℚ) ca) hh hix hpmem
    have h3 := visStep3_spec pts ca p nx
      (vUpdate st2 p (max ((doubleTriangleArea pts pp p nx : ℚ) : WithTop ℚ) ca)) hU.1 hU.2.1
      ((hU.2.2.1 nx).mpr hnxmem)
    rw [e]
    refine ⟨h3.1, h3.2.1, fun x => (h3.2.2.1 x).trans (hU.2.2.1 x), ?_, ?_, ?_, ?_,
      h3.2.2.2.2.2.2.1.trans hU.2.2.2.2.1, h3.2.2.2.2.2.2.2.trans hU.2.2.2.2.2.1⟩
    · intro x hxp hxnx
      rw [h3.2.2.2.1 x hxnx]
      simp only [hU.2.2.2.1]
      rw [if_neg hxp]
    · intro x
      by_cases hxnx : x = nx
      · subst hxnx
        rcases h3.2.2.2.2.1 with h | h
        · left
          rw [h]
          simp only [hU.2.2.2.1]
          rw [if_neg (Ne.symm hpnx)]
        · right
          exact h
      · rw [h3.2.2.2.1 x hxnx]
        by_cases hxp : x = p
        · right
          subst hxp
          simp only [hU.2.2.2.1, if_true]
          exact le_sup_right
        · left
          simp only [hU.2.2.2.1]
          rw [if_neg hxp]
    · intro hcon
      exact Option.noConfusion hcon
    · intro hnone
      have h7 := h3.2.2.2.2.2.1 (by rw [hU.2.2.2.2.1]; exact hnone)
      rw [h7]
      simp only [hU.2.2.2.1]
      rw [if_neg (Ne.symm hpnx)]

theorem visStep_spec (pts : List Pt) (st : VisState) (cur p nx : ℕ)
    (hne : st.heap ≠ [])
    (hh : HeapProp st.area st.heap) (hix : IdxInv st.heap st.idx)
    (hcur : cur = st.heap.getD 0 0)
    (hpmem : p ∈ st.heap) (hpne : p ≠ cur)
    (hnxmem : nx ∈ st.heap) (hnxne : nx ≠ cur) (hpnx : p ≠ nx) :
    HeapProp (visStep pts st cur p nx).area (visStep pts st cur p nx).heap ∧
    IdxInv (visStep pts st cur p nx).heap (visStep pts st cur p nx).idx ∧
    (∀ x, x ∈ (visStep pts st cur p nx).heap ↔ x ∈ st.heap ∧ x ≠ cur) ∧
    (∀ x, x ≠ p → x ≠ nx → (visStep pts st cur p nx).area x = st.area x) ∧
    (∀ x, (visStep pts st cur p nx).area x = st.area x ∨
      st.area cur ≤ (visStep pts st cur p nx).area x) ∧
    (st.prv p = none → (visStep pts st cur p nx).area p = st.area p) ∧
    (st.nxt nx = none → (visStep pts st cur p nx).area nx = st.area nx) ∧
    ((visStep pts st cur p nx).nxt = fun j => if j = p then some nx else st.nxt j) ∧
    ((visStep pts st cur p nx).prv = fun j => if j = nx then some p else st.prv j) := by
  subst hcur
  have hP := vPop_spec st hne hh hix
  have hhU : HeapProp (visUnlink (vPop st).2 p nx).area (visUnlink (vPop st).2 p nx).heap := by
    show HeapProp (vPop st).2.area (vPop st).2.heap
    rw [hP.2.2.2.2.1]
    exact hP.2.1
  have hixU : IdxInv (visUnlink (vPop st).2 p nx).heap (visUnlink (vPop st).2 p nx).idx :=
    hP.2.2.1
  have hpmemU : p ∈ (visUnlink (vPop st).2 p nx).heap :=
    (hP.2.2.2.1 p).mpr ⟨hpmem, hpne⟩
  have hnxmemU : nx ∈ (visUnlink (vPop st).2 p nx).heap :=
    (hP.2.2.2.1 nx).mpr ⟨hnxmem, hnxne⟩
  have h2 := visStep2_spec pts (st.area (st.heap.getD 0 0)) p nx
    (visUnlink (vPop st).2 p nx) hhU hixU hpmemU hnxmemU hpnx
  unfold visStep
  refine ⟨h2.1, h2.2.1, ?_, ?_, ?_, ?_, ?_, ?_, ?_⟩
  · intro x
    rw [h2.2.2.1 x]
    exact hP.2.2.2.1 x
  · intro x hxp hxnx
    rw [h2.2.2.2.1 x hxp hxnx]
    exact congrFun hP.2.2.2.2.1 x
  · intro x
    rcases h2.2.2.2.2.1 x with h | h
    · left
      rw [h]
      exact congrFun hP.2.2.2.2.1 x
    · right
      exact h
  · intro hnone
    have hprvU : (visUnlink (vPop st).2 p nx).prv p = none := by
      show (if p = nx then some p else (vPop st).2.prv p) = none
      rw [if_neg hpnx, hP.2.2.2.2.2.2.1]
      exact hnone
    rw [h2.2.2.2.2.2.1 hprvU]
    exact congrFun hP.2.2.2.2.1 p
  · intro hnone
    have hnxtU : (visUnlink (vPop st).2 p nx).nxt nx = none := by
      show (if nx = p then some nx else (vPop st).2.nxt nx) = none
      rw [if_neg (Ne.symm hpnx), hP.2.2.2.2.2.1]
      exact hnone
    rw [h2.2.2.2.2.2.2.1 hnxtU]
    exact congrFun hP.2.2.2.2.1 nx
  · rw [h2.2.2.2.2.2.2.2.1]
    funext j
    show (if j = p then some nx else (vPop st).2.nxt j) = _
    rw [hP.2.2.2.2.2.1]
  · rw [h2.2.2.2.2.2.2.2.2]
    funext j
    show (if j = nx then some p else (vPop st).2.prv j) = _
    rw [hP.2.2.2.2.2.2.1]

theorem visLoop_chain (pts : List Pt) (t2 : ℚ) :
    ∀ (fuel : ℕ) (st : VisState) (acc : List (ℕ × WithTop ℚ)) (L : List ℕ),
    HeapProp st.area st.heap → IdxInv st.heap st.idx → VisChain st L →
    List.Chain' (· ≤ ·) (acc.map Prod.snd) →
    (∀ a ∈ acc.map Prod.snd, ∀ x, x ∈ st.heap → a ≤ st.area x) →
    List.Chain' (· ≤ ·) ((visLoop pts t2 fuel st acc).1.map Prod.snd) := by
  intro fuel
  induction fuel with
  | zero =>
    intro st acc L hh hix hchain hacc hlow
    simp only [visLoop]
    exact hacc
  | succ fuel ih =>
    intro st acc L hh hix hchain hacc hlow
    unfold VisChain at hchain
    obtain ⟨hHL, hN, hNlast, hPv, hPhead, hlen2, hnd, hA0, hAlast⟩ := hchain
    by_cases hne : st.heap = []
    · have e : visLoop pts t2 (fuel + 1) st acc = (acc, st) := by
        simp only [visLoop]
        rw [if_pos hne]
      rw [e]
      exact hacc
    · have hP := vPop_spec st hne hh hix
      by_cases hbr : (t2 : WithTop ℚ) < st.area (vPop st).1
      · have e : visLoop pts t2 (fuel + 1) st acc = (acc, (vPop st).2) := by
          simp only [visLoop]
          rw [if_neg hne, if_pos hbr]
        rw [e]
        exact hacc
      · have hlenpos : 0 < st.heap.length := List.length_pos.mpr hne
        have hcur : (vPop st).1 = st.heap.getD 0 0 := hP.1
        have hcurmem : st.heap.getD 0 0 ∈ st.heap := getD_mem _ _ hlenpos
        have hcurL : st.heap.getD 0 0 ∈ L := (hHL _).mp hcurmem
        have hcne0 : st.heap.getD 0 0 ≠ L.getD 0 0 := by
          intro he
          apply hbr
          rw [hcur, he, hA0]
          exact WithTop.coe_lt_top t2
        have hcnelast : st.heap.getD 0 0 ≠ L.getD (L.length - 1) 0 := by
          intro he
          apply hbr
          rw [hcur, he, hAlast]
          exact WithTop.coe_lt_top t2
        obtain ⟨i, hiL, hie⟩ := mem_getD L _ hcurL
        have hi0 : 0 < i := by
          rcases Nat.eq_zero_or_pos i with rfl | h
          · exact absurd hie.symm hcne0
          · exact h
        have hilast : i + 1 < L.length := by
          rcases Nat.lt_or_ge (i + 1) L.length with h | h
          · exact h
          · exfalso
            have hieq : i = L.length - 1 := by omega
            rw [hieq] at hie
            exact hcnelast hie.symm
        have hlen3 : 3 ≤ L.length := by omega
        have hprvcur : st.prv (st.heap.getD 0 0) = some (L.getD (i - 1) 0) := by
          have h1 := hPv (i - 1) (by omega)
          rw [show i - 1 + 1 = i from by omega, hie] at h1
          exact h1
        have hnxtcur : st.nxt (st.heap.getD 0 0) = some (L.getD (i + 1) 0) := by
          have h1 := hN i hilast
          rw [hie] at h1
          exact h1
        have hpne : L.getD (i - 1) 0 ≠ st.heap.getD 0 0 := by
          rw [← hie]
          intro he
          have := nodup_getD_inj L hnd (by omega) hiL he
          omega
        have hnxne : L.getD (i + 1) 0 ≠ st.heap.getD 0 0 := by
          rw [← hie]
          intro he
          have := nodup_getD_inj L hnd hilast hiL he
          omega
        have hpnx : L.getD (i - 1) 0 ≠ L.getD (i + 1) 0 := by
          intro he
          have := nodup_getD_inj L hnd (by omega) hilast he
          omega
        have hpmem : L.getD (i - 1) 0 ∈ st.heap := (hHL _).mpr (getD_mem _ _ (by omega))
        have hnxmem : L.getD (i + 1) 0 ∈ st.heap := (hHL _).mpr (getD_mem _ _ (by omega))
        have e : visLoop pts t2 (fuel + 1) st acc =
            visLoop pts t2 fuel
              (visStep pts st (st.heap.getD 0 0) (L.getD (i - 1) 0) (L.getD (i + 1) 0))
              (acc ++ [(st.heap.getD 0 0, st.area (st.heap.getD 0 0))]) := by
          simp only [visLoop]
          rw [if_neg hne, if_neg hbr, hcur, hprvcur, hnxtcur]
        rw [e]
        have hS := visStep_spec pts st (st.heap.getD 0 0) (L.getD (i - 1) 0)
          (L.getD (i + 1) 0) hne hh hix rfl hpmem hpne hnxmem hnxne hpnx
        have hmin : ∀ x, x ∈ st.heap → st.area (st.heap.getD 0 0) ≤ st.area x :=
          fun x hx => heapRoot_min_mem st.area st.heap hh x hx
        have hlow' : ∀ x, x ∈ (visStep pts st (st.heap.getD 0 0) (L.getD (i - 1) 0)
              (L.getD (i + 1) 0)).heap →
            st.area (st.heap.getD 0 0) ≤ (visStep pts st (st.heap.getD 0 0)
              (L.getD (i - 1) 0) (L.getD (i + 1) 0)).area x := by
          intro x hx
          rcases hS.2.2.2.2.1 x with h | h
          · rw [h]
            exact hmin x ((hS.2.2.1 x).mp hx).1
          · exact h
        refine ih _ _ (L.eraseIdx i) hS.1 hS.2.1 ?_ ?_ ?_
        · unfold VisChain
          refine ⟨?_, ?_, ?_, ?_, ?_, ?_, ?_, ?_, ?_⟩
          · intro x
            rw [hS.2.2.1 x, mem_eraseIdx_nodup L hnd i hiL x, hHL x, hie]
          · intro j hj
            rw [length_eraseIdx_lt L i hiL] at hj
            simp only [hS.2.2.2.2.2.2.2.1]
            rcases Nat.lt_or_ge (j + 1) i with hlt | hge
            · rw [getD_eraseIdx_lt L i j hiL (by omega), getD_eraseIdx_lt L i (j + 1) hiL hlt]
              rw [if_neg (by
                intro he
                have := nodup_getD_inj L hnd (by omega) (by omega) he
                omega)]
              exact hN j (by omega)
            · rcases Nat.eq_or_lt_of_le hge with heq | hgt
              · subst heq
                rw [getD_eraseIdx_lt L (j + 1) j hiL (by omega),
                  getD_eraseIdx_ge L (j + 1) (j + 1) (le_refl _) (by omega)]
                rw [if_pos (show L.getD j 0 = L.getD (j + 1 - 1) 0 from rfl)]
              · rw [getD_eraseIdx_ge L i j (by omega) (by omega),
                  getD_eraseIdx_ge L i (j + 1) (by omega) (by omega)]
                rw [if_neg (by
                  intro he
                  have := nodup_getD_inj L hnd (by omega) (by omega) he
                  omega)]
                exact hN (j + 1) (by omega)
          · rw [length_eraseIdx_lt L i hiL,
              getD_eraseIdx_ge L i (L.length - 1 - 1) (by omega) (by omega),
              show L.length - 1 - 1 + 1 = L.length - 1 from by omega]
            simp only [hS.2.2.2.2.2.2.2.1]
            rw [if_neg (by
              intro he
              have := nodup_getD_inj L hnd (by omega) (by omega) he
              omega)]
            exact hNlast
          · intro j hj
            rw [length_eraseIdx_lt L i hiL] at hj
            simp only [hS.2.2.2.2.2.2.2.2]
            rcases Nat.lt_or_ge (j + 1) i with hlt | hge
            · rw [getD_eraseIdx_lt L i (j + 1) hiL hlt, getD_eraseIdx_lt L i j hiL (by omega)]
              rw [if_neg (by
                intro he
                have := nodup_getD_inj L hnd (by omega) hilast he
                omega)]
              exact hPv j (by omega)
            · rcases Nat.eq_or_lt_of_le hge with heq | hgt
              · subst heq
                rw [getD_eraseIdx_ge L (j + 1) (j + 1) (le_refl _) (by omega),
                  getD_eraseIdx_lt L (j + 1) j hiL (by omega)]
                rw [if_pos (show L.getD (j + 1 + 1) 0 = L.getD (j + 1 + 1) 0 from rfl)]
                rfl
              · rw [getD_eraseIdx_ge L i (j + 1) (by omega) (by omega),
                  getD_eraseIdx_ge L i j (by omega) (by omega)]
                rw [if_neg (by
                  intro he
                  have := nodup_getD_inj L hnd (by omega) hilast he
                  omega)]
                exact hPv (j + 1) (by omega)
          · rw [getD_eraseIdx_lt L i 0 hiL hi0]
            simp only [hS.2.2.2.2.2.2.2.2]
            rw [if_neg (by
              intro he
              have := nodup_getD_inj L hnd (by omega) hilast he
              omega)]
            exact hPhead
          · rw [length_eraseIdx_lt L i hiL]
            omega
          · exact hnd.eraseIdx i
          · rw [getD_eraseIdx_lt L i 0 hiL hi0]
            by_cases hi1 : i = 1
            · subst hi1
              exact (hS.2.2.2.2.2.1 hPhead).trans hA0
            · have h8 := hS.2.2.2.1 (L.getD 0 0)
                (by
                  intro he
                  have := nodup_getD_inj L hnd (by omega) (by omega) he
                  omega)
                (by
                  intro he
                  have := nodup_getD_inj L hnd (by omega) hilast he
                  omega)
              rw [h8]
              exact hA0
          · rw [length_eraseIdx_lt L i hiL,
              getD_eraseIdx_ge L i (L.length - 1 - 1) (by omega) (by omega),
              show L.length - 1 - 1 + 1 = L.length - 1 from by omega]
            by_cases hil : i + 1 = L.length - 1
            · have hnone : st.nxt (L.getD (i + 1) 0) = none := by
                rw [hil]
                exact hNlast
              rw [← hil, hS.2.2.2.2.2.2.1 hnone, hil]
              exact hAlast
            · have h9 := hS.2.2.2.1 (L.getD (L.length - 1) 0)
                (by
                  intro he
                  have := nodup_getD_inj L hnd (by omega) (by omega) he
                  omega)
                (by
                  intro he
                  have := nodup_getD_inj L hnd (by omega) hilast he
                  omega)
              rw [h9]
              exact hAlast
        · rw [List.map_append, List.chain'_append]
          refine ⟨hacc, List.chain'_singleton _, ?_⟩
          intro a ha b hb
          simp only [List.map_cons, List.map_nil, List.head?_cons, Option.mem_def,
            Option.some.injEq] at hb
          rw [← hb]
          exact hlow a (List.mem_of_mem_getLast? ha) _ hcurmem
        · intro a ha x hx
          rw [List.map_append, List.mem_append] at ha
          have hbound : st.area (st.heap.getD 0 0) ≤ (visStep pts st (st.heap.getD 0 0)
              (L.getD (i - 1) 0) (L.getD (i + 1) 0)).area x := hlow' x hx
          rcases ha with ha | ha
          · exact le_trans (hlow a ha _ hcurmem) hbound
          · simp only [List.map_cons, List.map_nil, List.mem_singleton] at ha
            rw [ha]
            exact hbound

theorem foldl_vPush_spec (st0 : VisState) (h0 : st0.heap = []) :
    ∀ k : ℕ,
    HeapProp ((List.range k).foldl vPush st0).area ((List.range k).foldl vPush st0).heap ∧
    IdxInv ((List.range k).foldl vPush st0).heap ((List.range k).foldl vPush st0).idx ∧
    (∀ x, x ∈ ((List.range k).foldl vPush st0).heap ↔ x < k) ∧
    ((List.range k).foldl vPush st0).area = st0.area ∧
    ((List.range k).foldl vPush st0).nxt = st0.nxt ∧
    ((List.range k).foldl vPush st0).prv = st0.prv := by
  intro k
  induction k with
  | zero =>
    have hh0 : ((List.range 0).foldl vPush st0).heap = [] := h0
    refine ⟨?_, ?_, ?_, rfl, rfl, rfl⟩
    · intro c hc _
      rw [hh0] at hc
      simp at hc
    · intro c hc
      rw [hh0] at hc
      simp at hc
    · intro x
      rw [hh0]
      simp
  | succ k ihk =>
    rw [List.range_succ, List.foldl_append, List.foldl_cons, List.foldl_nil]
    have hnotmem : k ∉ ((List.range k).foldl vPush st0).heap := by
      rw [ihk.2.2.1 k]
      omega
    have hs := vPush_spec _ k ihk.1 ihk.2.1 hnotmem
    refine ⟨hs.1, hs.2.1, ?_, hs.2.2.2.1.trans ihk.2.2.2.1,
      hs.2.2.2.2.1.trans ihk.2.2.2.2.1, hs.2.2.2.2.2.1.trans ihk.2.2.2.2.2⟩
    intro x
    rw [hs.2.2.1 x, ihk.2.2.1 x]
    omega

theorem visInit_spec (pts : List Pt) (h3 : 3 ≤ pts.length) :
    HeapProp (visInit pts).area (visInit pts).heap ∧
    IdxInv (visInit pts).heap (visInit pts).idx ∧
    VisChain (visInit pts) (List.range pts.length) := by
  unfold visInit VisChain
  have hs := foldl_vPush_spec
    { area := fun i => if i = 0 ∨ i = pts.length - 1 then ⊤
        else ((doubleTriangleArea pts (i - 1) i (i + 1) : ℚ) : WithTop ℚ)
      nxt := fun i => if i + 1 < pts.length then some (i + 1) else none
      prv := fun i => if i = 0 then none else some (i - 1)
      heap := []
      idx := fun _ => 0 } rfl pts.length
  have hlr : (List.range pts.length).length = pts.length := List.length_range _
  refine ⟨hs.1, hs.2.1, ?_, ?_, ?_, ?_, ?_, ?_, List.nodup_range _, ?_, ?_⟩
  · intro x
    rw [List.mem_range]
    exact hs.2.2.1 x
  · intro j hj
    rw [hlr] at hj
    rw [getD_range pts.length j (by omega), getD_range pts.length (j + 1) hj,
      hs.2.2.2.2.1]
    show (if j + 1 < pts.length then some (j + 1) else none) = some (j + 1)
    rw [if_pos hj]
  · rw [hlr, getD_range pts.length (pts.length - 1) (by omega), hs.2.2.2.2.1]
    show (if pts.length - 1 + 1 < pts.length then some (pts.length - 1 + 1) else none) = none
    rw [if_neg (by omega)]
  · intro j hj
    rw [hlr] at hj
    rw [getD_range pts.length (j + 1) hj, getD_range pts.length j (by omega),
      hs.2.2.2.2.2]
    show (if j + 1 = 0 then none else some (j + 1 - 1)) = some j
    rw [if_neg (by omega)]
    rfl
  · rw [getD_range pts.length 0 (by omega), hs.2.2.2.2.2]
    show (if 0 = 0 then none else some (0 - 1)) = none
    rw [if_pos rfl]
  · rw [hlr]
    omega
  · rw [getD_range pts.length 0 (by omega), hs.2.2.2.1]
    show (if 0 = 0 ∨ 0 = pts.length - 1 then ⊤
      else ((doubleTriangleArea pts (0 - 1) 0 (0 + 1) : ℚ) : WithTop ℚ)) = ⊤
    rw [if_pos (Or.inl rfl)]
  · rw [hlr, getD_range pts.length (pts.length - 1) (by omega), hs.2.2.2.1]
    show (if pts.length - 1 = 0 ∨ pts.length - 1 = pts.length - 1 then ⊤
      else ((doubleTriangleArea pts (pts.length - 1 - 1) (pts.length - 1)
        (pts.length - 1 + 1) : ℚ) : WithTop ℚ)) = ⊤
    rw [if_pos (Or.inr rfl)]

/-- C7: in the Visvalingam–Whyatt simplifier `visvalingam`, the vertices
removed from the min-heap, taken in their order of removal, carry
non-decreasing effective (doubled triangle) areas: each neighbour's
recomputed area is clamped from below by the just-removed vertex's area
before the heap `Update`, so the recorded removal areas form a `≤`-chain. -/
theorem C7_visvalingam_monotone (pts : List Pt) (thresh : ℚ) :
    List.Chain' (· ≤ ·) ((visRemoved pts thresh).map Prod.snd) := by
  unfold visRemoved
  split_ifs with hg
  · simp
  · push_neg at hg
    have hs := visInit_spec pts hg.2
    exact visLoop_chain pts (2 * thresh) ((visInit pts).heap.length) (visInit pts) []
      (List.range pts.length) hs.1 hs.2.1 hs.2.2 (by simp)
      (by intro a ha; simp at ha)

end GeodeskTiles
